import Mathlib

/-!
# The two-pass predictive encoder of `jpeg-ls.c`

A shallow embedding of `src/jpeg-ls.c` and the properties of its category table, residual
visitors, row walker, row interleaver and driver.

Conventions of the embedding.

* Every C loop is a recursive function whose `if` is the loop guard and whose arguments are
  the variables the loop changes.
* Memory reached through a raw pointer (`const uint16* rowptr`, the row buffers `vrow0` and
  `vrow1`, a histogram `unsigned long* freq`) is a map from offsets to cell values; a pointer
  into such a block is the block together with an offset.
* The global `numbits[65536]` is an array with a checked store, so that a store outside the
  array makes the initialiser fail instead of passing unnoticed.
* `unsigned` dimensions are natural numbers: the embedding describes the runs in which no
  dimension product (`out_cols * channels * 2`, the declared length of a row buffer) and no
  row or column counter wraps at `2 ^ 32`, and no histogram cell wraps.
* A residual (`int diff`) is an integer; samples are at most `65535`, so every difference of
  two samples is exact in `int`.
* The visitor `fn(stream, diff, data[k])` becomes `fn diff k s`, where `s` is everything the
  visitor may change (the histograms, or the bit stream) and `k` is the index into `data[]`.
* The external collaborators of the driver (table builder, container writer, bitstream
  writer) are not run: their calls are recorded, in order, with their arguments.
* That a source sample is read shows in the residuals: two rasters that agree on every sample
  read give the same residuals.
-/

namespace JpegLs

/-! ## Memory -/

/-- Cells reached through a raw pointer, addressed by their offset from it. -/
abbrev Mem := Nat → Nat

/-- The assignment `m[i] = v`. -/
def store (m : Mem) (i v : Nat) : Mem := fun j => if j = i then v else m j

/-- The first `n` cells of a block, as a list. -/
def cells (m : Mem) (n : Nat) : List Nat := (List.range n).map m

/-! ## Category table (`init_numbits`) -/

/-- The inner loop `while (j < k) numbits[j++] = i;`. The result is the final `j` and the
table, or `none` when a store falls outside the array. -/
def fill_numbits (i k : Nat) (j : Nat) (tbl : Array Nat) : Option (Nat × Array Nat) :=
  if j < k then
    if h : j < tbl.size then fill_numbits i k (j + 1) (tbl.set ⟨j, h⟩ i) else none
  else some (j, tbl)
termination_by k - j

/-- The outer loop `for (...; i <= 16; ++i, k <<= 1)` of `init_numbits`, entered with the
current `j`, `i`, `k`; `k` is a 32-bit `unsigned`. -/
def init_numbits_loop (j i k : Nat) (tbl : Array Nat) : Option (Array Nat) :=
  if i ≤ 16 then
    match fill_numbits i k j tbl with
    | none => none
    | some (j1, tbl1) => init_numbits_loop j1 (i + 1) ((k <<< 1) % 4294967296) tbl1
  else some tbl
termination_by 17 - i

/-- The function `init_numbits`, run on the current contents of the global table
(`j = 0, i = 0, k = 1`). -/
def init_numbits (tbl : Array Nat) : Option (Array Nat) := init_numbits_loop 0 0 1 tbl

/-- The global `numbits` after `init_numbits` has run on the zero-initialised static array. -/
def numbits : Array Nat := (init_numbits (Array.mkArray 65536 0)).getD #[]

/-! ## Visitors (`count_diff`, `write_diff`) -/

/-- The function `count_diff` on the histogram `freq` its `dataptr` points to. A lookup
`numbits[diff]` outside the table reads as `0`. -/
def count_diff (tbl : Array Nat) (diff : Int) (freq : Mem) : Mem :=
  let diff := if diff < 0 then -diff else diff
  store freq (tbl.getD diff.toNat 0) (freq (tbl.getD diff.toNat 0) + 1)

/-- The two tables of `struct jpeg_huffman_encoder` that `write_diff` reads: codeword and
code length per category. -/
structure jpeg_huffman_encoder where
  /-- Codeword of a category. -/
  ehufco : Nat → Nat
  /-- Code length of a category. -/
  ehufsi : Nat → Nat

/-- Modelled from the spec: the external bitstream writer `jpeg_write_bits`, the operation
"write N bits of value V"; the stream is the list of the writes issued so far, each a pair
(length, value). -/
def jpeg_write_bits (stream : List (Nat × Nat)) (count value : Nat) : List (Nat × Nat) :=
  stream ++ [(count, value)]

/-- The function `write_diff`. `data` is an `int`; in `data & ~(~0U << bits)` it is converted
to a 32-bit `unsigned` and the mask is computed in 32-bit `unsigned`. -/
def write_diff (tbl : Array Nat) (huffman : jpeg_huffman_encoder) (diff : Int)
    (stream : List (Nat × Nat)) : List (Nat × Nat) :=
  let data := if diff < 0 then ~~~(-diff) else diff
  let diff := if diff < 0 then -diff else diff
  let bits := tbl.getD diff.toNat 0
  let stream := jpeg_write_bits stream (huffman.ehufsi bits) (huffman.ehufco bits)
  if bits ≠ 16 then
    jpeg_write_bits stream bits
      ((data % 4294967296).toNat &&& (4294967295 - (4294967295 <<< bits) % 4294967296))
  else stream

/-- The visitor of pass 1: `count_diff` on `data[k]`, where `data[t]` is the histogram
`freq[t]`. -/
def count_visitor (tbl : Array Nat) (diff : Int) (k : Nat) (freq : Nat → Mem) : Nat → Mem :=
  fun t => if t = k then count_diff tbl diff (freq t) else freq t

/-- The visitor of pass 2: `write_diff` on `data[k]`, where `data[t]` is the code table
`huffman[t]`. -/
def write_visitor (tbl : Array Nat) (huffman : Nat → jpeg_huffman_encoder) (diff : Int)
    (k : Nat) (stream : List (Nat × Nat)) : List (Nat × Nat) :=
  write_diff tbl (huffman k) diff stream

/-- A visitor that only records its arguments: the residual and the index into `data[]`. -/
def record (diff : Int) (k : Nat) (log : List (Int × Nat)) : List (Int × Nat) :=
  log ++ [(diff, k)]

/-! ## Row walker (`process_row`) -/

/-- The loop of `process_row`. `p` is the offset that `row1 += 2` has reached in the current
row; `row0 += 2` is dead, the previous row is read only before the loop. -/
def process_row_loop {σ : Type} (fn : Int → Nat → σ → σ) (row1 : Mem) (cols table1 : Nat)
    (col p : Nat) (pred0 pred1 : Int) (s : σ) : σ :=
  if col < cols then
    let diff0 : Int := (row1 p : Int) - pred0
    let diff1 : Int := (row1 (p + 1) : Int) - pred1
    let s := fn diff0 0 s
    let s := fn diff1 table1 s
    process_row_loop fn row1 cols table1 (col + 1) (p + 2) (row1 p) (row1 (p + 1)) s
  else s
termination_by cols - col

/-- The function `process_row`. -/
def process_row {σ : Type} (fn : Int → Nat → σ → σ) (row0 row1 : Mem) (cols table1 : Nat)
    (s : σ) : σ :=
  process_row_loop fn row1 cols table1 0 0 (row0 0) (row0 1) s

/-- The residuals one call of `process_row` dispatches, in closed form: position `i` is
predicted from the previous row for `i < 2` and from the sample two places to the left in
the current row afterwards; even positions go to `data[0]`, odd ones to `data[table1]`. -/
def row_residuals (row0 row1 : Mem) (cols table1 : Nat) : List (Int × Nat) :=
  (List.range (2 * cols)).map (fun i =>
    ((row1 i : Int) - (if i < 2 then (row0 i : Int) else (row1 (i - 2) : Int)),
      if i % 2 = 0 then 0 else table1))

/-! ## Row interleaver (`process_image`) -/

/-- The copy loop `for (col = 0; col < enc_cols * channels; ++col, ++vcol, ++ptr)
*ptr = rowptr[col];` of `process_image`; `data` is the source raster and `rowptr` the offset
of the current source row in it. The counter `vcol` is never read and is left out. The
result is the final `col`, the final `ptr` and the buffer. -/
def copy_loop (data : Mem) (rowptr limit : Nat) (col ptr : Nat) (buf : Mem) :
    Nat × Nat × Mem :=
  if col < limit then
    copy_loop data rowptr limit (col + 1) (ptr + 1) (store buf ptr (data (rowptr + col)))
  else (col, ptr, buf)
termination_by limit - col

/-- The padding loop `for (; col < out_cols * channels; col += 2, vcol += 2, ptr += 2)` of
`process_image`. The result is the final `ptr` and the buffer. -/
def pad_loop (limit last0 last1 : Nat) (col ptr : Nat) (buf : Mem) : Nat × Mem :=
  if col < limit then
    pad_loop limit last0 last1 (col + 2) (ptr + 2) (store (store buf ptr last0) (ptr + 1) last1)
  else (ptr, buf)
termination_by limit - col

/-- The loop `for (ptr = vrow1, vcol = vrow = 0; vrow < 2; ++vrow)` of `process_image`,
entered with the current `vrow`, `rowptr` and `ptr` (an offset into the buffer `vrow1`).
`ptr[-2]` and `ptr[-1]` are taken at `ptr - 2` and `ptr - 1`; they lie inside the buffer as
soon as `enc_cols * channels >= 2`. The result is the final `rowptr` and the buffer. -/
def merge_loop (data : Mem) (enc_cols out_cols channels row_width : Nat)
    (vrow rowptr ptr : Nat) (buf : Mem) : Nat × Mem :=
  if vrow < 2 then
    match copy_loop data rowptr (enc_cols * channels) 0 ptr buf with
    | (col, ptr1, buf1) =>
      let last0 := buf1 (ptr1 - 2)
      let last1 := buf1 (ptr1 - 1)
      match pad_loop (out_cols * channels) last0 last1 col ptr1 buf1 with
      | (ptr2, buf2) =>
        merge_loop data enc_cols out_cols channels row_width (vrow + 1) (rowptr + row_width)
          ptr2 buf2
  else (rowptr, buf)
termination_by 2 - vrow

/-- The value `1 << (bit_depth - 1)` as stored in a `uint16` cell. The shift is defined in C
for `1 <= bit_depth <= 31`. -/
def seed (bit_depth : Nat) : Nat := (1 <<< (bit_depth - 1)) % 65536

/-- The first loop of `process_image`, `for (row = 0; row < enc_rows; row += 2)`, entered
with the current `row`, `rowptr`, the two buffer pointers and the visitor state. The result
is the final `row` and the visitor state. -/
def rows_loop {σ : Type} (fn : Int → Nat → σ → σ) (data : Mem)
    (enc_rows enc_cols out_cols channels bit_depth row_width table1 : Nat)
    (row rowptr : Nat) (vrow0 vrow1 : Mem) (s : σ) : Nat × σ :=
  if row < enc_rows then
    let vrow0 := if row = 0 then store (store vrow0 1 (seed bit_depth)) 0 (seed bit_depth)
      else vrow0
    match merge_loop data enc_cols out_cols channels row_width 0 rowptr 0 vrow1 with
    | (rowptr1, merged) =>
      let s := process_row fn vrow0 merged (out_cols * 2) table1 s
      rows_loop fn data enc_rows enc_cols out_cols channels bit_depth row_width table1
        (row + 2) rowptr1 merged vrow0 s
  else (row, s)
termination_by enc_rows - row

/-- The loop `for (col = 0; col < out_cols * 2; ++col)` of the filler rows. -/
def filler_cols {σ : Type} (fn : Int → Nat → σ → σ) (out_cols table1 : Nat) (col : Nat)
    (s : σ) : σ :=
  if col < out_cols * 2 then
    filler_cols fn out_cols table1 (col + 1) (fn 0 table1 (fn 0 0 s))
  else s
termination_by out_cols * 2 - col

/-- The second loop of `process_image`, `for (; row < out_rows; row += 2)`. -/
def filler_rows {σ : Type} (fn : Int → Nat → σ → σ) (out_rows out_cols table1 : Nat)
    (row : Nat) (s : σ) : σ :=
  if row < out_rows then
    filler_rows fn out_rows out_cols table1 (row + 2) (filler_cols fn out_cols table1 0 s)
  else s
termination_by out_rows - row

/-- The index `table1 = !!multi_table`. -/
def table1_of (multi_table : Int) : Nat := if multi_table ≠ 0 then 1 else 0

/-- The function `process_image`. `vrows0` and `vrows1` are the contents the two rows of the
local array `vrows` have on entry (they are not initialised), `s` is the visitor state on
entry; `rowptr` starts at offset `0` of the raster `data`. -/
def process_image {σ : Type} (fn : Int → Nat → σ → σ) (data : Mem)
    (enc_rows out_rows enc_cols out_cols channels bit_depth row_width : Nat)
    (multi_table : Int) (vrows0 vrows1 : Mem) (s : σ) : σ :=
  match rows_loop fn data enc_rows enc_cols out_cols channels bit_depth row_width
      (table1_of multi_table) 0 0 vrows0 vrows1 s with
  | (row, s1) => filler_rows fn out_rows out_cols (table1_of multi_table) row s1

/-- The residuals of `n` filler column halves, in closed form: zeros, alternating between
`data[0]` and `data[table1]`. -/
def filler_residuals (n table1 : Nat) : List (Int × Nat) :=
  (List.range n).map (fun i => ((0 : Int), if i % 2 = 0 then 0 else table1))

/-- The residuals of `n` successive iterations of the first loop of `process_image`, started
in the given state: each iteration contributes the residuals of its `process_row` call. -/
def rows_residuals (data : Mem) (enc_cols out_cols channels bit_depth row_width table1 : Nat) :
    Nat → Nat → Nat → Mem → Mem → List (Int × Nat)
  | 0, _, _, _, _ => []
  | n + 1, row, rowptr, vrow0, vrow1 =>
    row_residuals
        (if row = 0 then store (store vrow0 1 (seed bit_depth)) 0 (seed bit_depth) else vrow0)
        (merge_loop data enc_cols out_cols channels row_width 0 rowptr 0 vrow1).2
        (out_cols * 2) table1 ++
      rows_residuals data enc_cols out_cols channels bit_depth row_width table1 n (row + 2)
        (merge_loop data enc_cols out_cols channels row_width 0 rowptr 0 vrow1).1
        (merge_loop data enc_cols out_cols channels row_width 0 rowptr 0 vrow1).2
        (if row = 0 then store (store vrow0 1 (seed bit_depth)) 0 (seed bit_depth) else vrow0)

/-- The residuals `process_image` dispatches, in order, each with the index into `data[]` it
is dispatched with. -/
def dispatched (data : Mem)
    (enc_rows out_rows enc_cols out_cols channels bit_depth row_width : Nat)
    (multi_table : Int) (vrows0 vrows1 : Mem) : List (Int × Nat) :=
  process_image record data enc_rows out_rows enc_cols out_cols channels bit_depth row_width
    multi_table vrows0 vrows1 []

/-- Pass 1 of `jpeg_ls_encode`: after `init_numbits` and `memset(freq, 0, sizeof freq)`,
`process_image` runs with `count_diff`, `dataptrs[t] = freq[t]` and `multi_table = 1`. The
result is the pair of histograms. -/
def pass1 (data : Mem) (enc_rows out_rows enc_cols out_cols channels bit_depth row_width : Nat)
    (vrows0 vrows1 : Mem) : Nat → Mem :=
  process_image (count_visitor numbits) data enc_rows out_rows enc_cols out_cols channels
    bit_depth row_width 1 vrows0 vrows1 (fun _ _ => 0)

/-- The sum of all cells of `unsigned long freq[2][256]`. -/
def freq_total (freq : Nat → Mem) : Nat :=
  ((List.range 2).map (fun t => ((List.range 256).map (freq t)).sum)).sum

/-! ## Driver (`jpeg_ls_encode`) -/

/-- The call `count_diff(stream, diff, dataptr)` with everything it is handed: the bit stream,
which it does not use (`(void)stream`), and the histogram `dataptr` points to. The result is
the stream and the histogram after the call. -/
def count_diff_call (tbl : Array Nat) (stream : List (Nat × Nat)) (diff : Int) (freq : Mem) :
    List (Nat × Nat) × Mem :=
  (stream, count_diff tbl diff freq)

/-- Modelled from the spec: the calls `jpeg_ls_encode` makes to its external collaborators,
each with its arguments: the code table builder `jpeg_huffman_generate(&huffman[t], freq[t])`,
the container writer `jpeg_write_start` (row count, column count, channel count, bit depth,
code tables, `multi_table` and its last argument) and `jpeg_write_end`, and the bitstream
writer `jpeg_write_bits` and `jpeg_write_flush`. -/
inductive Event where
  /-- The call `jpeg_huffman_generate(&huffman[t], freq[t])`. -/
  | huffman_generate (t : Nat) (freq : Mem)
  /-- The call `jpeg_write_start(&bitstream, rows, cols, channels, bit_depth, huffman,
  multi_table, last)`. -/
  | write_start (rows cols channels bit_depth : Nat) (huffman : Nat → jpeg_huffman_encoder)
      (multi_table last : Int)
  /-- The call `jpeg_write_bits(stream, count, value)`. -/
  | write_bits (count value : Nat)
  /-- The call `jpeg_write_flush(&bitstream)`. -/
  | write_flush
  /-- The call `jpeg_write_end(&bitstream)`. -/
  | write_end

/-- The last argument of a `jpeg_write_start` call, nothing for any other call. -/
def start_last : Event → Option Int
  | Event.write_start _ _ _ _ _ _ last => some last
  | _ => none

/-- The visitor of pass 2 inside `jpeg_ls_encode`, on the record of all external calls: the
writes `write_diff` issues through `jpeg_write_bits` for `data[k] = &huffman[k]` follow the
calls recorded so far. -/
def encode_visitor (tbl : Array Nat) (huffman : Nat → jpeg_huffman_encoder) (diff : Int)
    (k : Nat) (calls : List Event) : List Event :=
  calls ++ (write_diff tbl (huffman k) diff []).map (fun w => Event.write_bits w.1 w.2)

/-- The function `jpeg_ls_encode`. `generate` is the external `jpeg_huffman_generate` (the
table it builds from a histogram), `huffman` the contents of the local array `huffman[2]` on
entry, `tbl` the global `numbits` on entry, `calls` the external calls recorded so far, and
`va0 va1`, `vb0 vb1` the contents on entry of the row buffers of the two `process_image`
calls. The result is the global table, the record of calls and the value returned; the value
is `none` when the run is aborted by `assert(channels == 2)` (as it is when assertions are
compiled in) or by a store outside `numbits`. -/
def jpeg_ls_encode (generate : Mem → jpeg_huffman_encoder)
    (huffman : Nat → jpeg_huffman_encoder) (tbl : Array Nat) (calls : List Event) (data : Mem)
    (enc_rows out_rows enc_cols out_cols channels bit_depth row_width : Nat)
    (va0 va1 vb0 vb1 : Mem) : Array Nat × List Event × Option Int :=
  let multi_table : Int := 1
  if channels ≠ 2 then (tbl, calls, none)
  else
    match init_numbits tbl with
    | none => (tbl, calls, none)
    | some tbl1 =>
      let freq : Nat → Mem := fun _ _ => 0
      let freq := process_image (count_visitor tbl1) data enc_rows out_rows enc_cols out_cols
        channels bit_depth row_width multi_table va0 va1 freq
      let huffman : Nat → jpeg_huffman_encoder :=
        fun t => if t = 0 then generate (freq 0) else huffman t
      let calls := calls ++ [Event.huffman_generate 0 (freq 0)]
      let huffman : Nat → jpeg_huffman_encoder :=
        if multi_table ≠ 0 then fun t => if t = 1 then generate (freq 1) else huffman t
        else huffman
      let calls := if multi_table ≠ 0 then calls ++ [Event.huffman_generate 1 (freq 1)]
        else calls
      let calls := calls ++
        [Event.write_start (out_rows / 2) (out_cols * 2) channels bit_depth huffman
          multi_table 1]
      let calls := process_image (encode_visitor tbl1 huffman) data enc_rows out_rows
        enc_cols out_cols channels bit_depth row_width multi_table vb0 vb1 calls
      let calls := calls ++ [Event.write_flush]
      let calls := calls ++ [Event.write_end]
      (tbl1, calls, some 1)

/-- The local array `huffman[2]` of `jpeg_ls_encode` after the two calls of the table
builder on the histograms `freq[0]` and `freq[1]`. -/
def generated_tables (generate : Mem → jpeg_huffman_encoder)
    (huffman : Nat → jpeg_huffman_encoder) (freq : Nat → Mem) : Nat → jpeg_huffman_encoder :=
  fun t => if t = 1 then generate (freq 1) else if t = 0 then generate (freq 0) else huffman t

/-- Pass 2 of `jpeg_ls_encode` on its own: `process_image` runs with `write_diff`,
`dataptrs[t] = &huffman[t]` and `multi_table = 1`. The result is the list of bit writes. -/
def pass2 (tables : Nat → jpeg_huffman_encoder) (data : Mem)
    (enc_rows out_rows enc_cols out_cols channels bit_depth row_width : Nat)
    (vrows0 vrows1 : Mem) : List (Nat × Nat) :=
  process_image (write_visitor numbits tables) data enc_rows out_rows enc_cols out_cols
    channels bit_depth row_width 1 vrows0 vrows1 []

/-! ## Example inputs -/

/-- A code table with codeword `100 + c` and code length `200 + c` for category `c`. -/
def encoder_example : jpeg_huffman_encoder := ⟨fun c => 100 + c, fun c => 200 + c⟩

/-- A raster of four rows of two samples, `[10,20]`, `[11,21]`, `[12,22]`, `[13,23]`
(`row_width = 2`, one column pair per row). -/
def predictor_example : Mem := fun i => [10, 20, 11, 21, 12, 22, 13, 23].getD i 0

/-- The merged row `[10,20,11,21]` of the first two rows of `predictor_example`. -/
def merged_first : Mem := fun i => [10, 20, 11, 21].getD i 0

/-- The merged row `[12,22,13,23]` of the last two rows of `predictor_example`. -/
def merged_second : Mem := fun i => [12, 22, 13, 23].getD i 0

/-- A raster of four rows of eight samples (`row_width = 8`, four column pairs per row), the
sample at offset `i` being `i`. -/
def count_example : Mem := fun i => if i < 32 then i else 0

/-- The source rows `R0 = [10,20,30,40]`, `R1 = [11,21,31,41]` of the row-merge example, with
`row_width = 4`. -/
def merge_example : Mem := fun i => [10, 20, 30, 40, 11, 21, 31, 41].getD i 0

/-- A raster whose only valid row is `[10,20]` (`enc_rows = 1`, `row_width = 2`), followed
by the cells `0, 0`. -/
def odd_example_a : Mem := fun i => [10, 20, 0, 0].getD i 0

/-- The same valid row `[10,20]`, followed by the cells `5, 7`. -/
def odd_example_b : Mem := fun i => [10, 20, 5, 7].getD i 0

/-- The raster `predictor_example` followed by cells `777` beyond its four rows. -/
def predictor_example_beyond : Mem := fun i => if i < 8 then predictor_example i else 777

/-- A table builder that gives category `c` the codeword `c` and the code length `freq[c]`. -/
def generate_example : Mem → jpeg_huffman_encoder := fun freq => ⟨fun c => c, fun c => freq c⟩

/-! ## The category table -/

theorem fill_numbits_spec (i k : Nat) :
    ∀ (n j : Nat) (tbl : Array Nat), k - j = n → j ≤ k → k ≤ tbl.size →
      ∃ t, fill_numbits i k j tbl = some (k, t) ∧ t.size = tbl.size ∧
        ∀ v, t[v]? = if j ≤ v ∧ v < k then some i else tbl[v]? := by
  intro n
  induction n with
  | zero =>
    intro j tbl hn hjk _
    have hj : j = k := by omega
    subst hj
    refine ⟨tbl, ?_, rfl, ?_⟩
    · unfold fill_numbits; simp
    · intro v
      have : ¬ (j ≤ v ∧ v < j) := by omega
      simp [this]
  | succ n ih =>
    intro j tbl hn hjk hk
    have hlt : j < k := by omega
    have hsz : j < tbl.size := by omega
    obtain ⟨t, ht, hts, htv⟩ := ih (j + 1) (tbl.set ⟨j, hsz⟩ i) (by omega) (by omega)
      (by simpa using hk)
    refine ⟨t, ?_, ?_, ?_⟩
    · rw [fill_numbits]; simp [hlt, hsz, ht]
    · simpa using hts
    · intro v
      rw [htv v, Array.get?_set]
      by_cases h1 : j = v
      · subst h1; simp [hlt]
      · by_cases h2 : j + 1 ≤ v ∧ v < k
        · have : j ≤ v ∧ v < k := by omega
          simp [h2, this]
        · have : ¬ (j ≤ v ∧ v < k) := by omega
          simp [h1, h2, this]

theorem size_of_pow_bounds (i v : Nat) (hi : 1 ≤ i) (h1 : 2 ^ i / 2 ≤ v) (h2 : v < 2 ^ i) :
    v.size = i := by
  obtain ⟨m, rfl⟩ : ∃ m, i = m + 1 := ⟨i - 1, by omega⟩
  have hp : 2 ^ (m + 1) / 2 = 2 ^ m := by
    rw [pow_succ]; simp
  rw [hp] at h1
  have a : v.size ≤ m + 1 := Nat.size_le.mpr h2
  have b : m < v.size := Nat.lt_size.mpr h1
  omega

theorem init_numbits_loop_spec :
    ∀ (n i j k : Nat) (tbl : Array Nat), 17 - i = n → i ≤ 17 → k = 2 ^ i → j = k / 2 →
      tbl.size = 65536 → (∀ v, v < j → tbl[v]? = some v.size) →
      ∃ t, init_numbits_loop j i k tbl = some t ∧ t.size = 65536 ∧
        ∀ v, v < 65536 → t[v]? = some v.size := by
  intro n
  induction n with
  | zero =>
    intro i j k tbl hn hi hk hj hsz hv
    have : i = 17 := by omega
    subst this
    refine ⟨tbl, ?_, hsz, ?_⟩
    · unfold init_numbits_loop; simp
    · intro v hv2
      apply hv
      rw [hj, hk]; norm_num; omega
  | succ n ih =>
    intro i j k tbl hn hi hk hj hsz hv
    have hi16 : i ≤ 16 := by omega
    have hk2 : k ≤ 65536 := by
      rw [hk]; calc 2 ^ i ≤ 2 ^ 16 := Nat.pow_le_pow_right (by norm_num) hi16
        _ = 65536 := by norm_num
    have hjk : j ≤ k := by rw [hj]; exact Nat.div_le_self _ _
    obtain ⟨t, ht, hts, htv⟩ := fill_numbits_spec i k (k - j) j tbl rfl hjk (by omega)
    have hknext : (k <<< 1) % 4294967296 = 2 ^ (i + 1) := by
      rw [Nat.shiftLeft_eq, hk, pow_succ]
      apply Nat.mod_eq_of_lt
      rw [← hk]; omega
    obtain ⟨t2, ht2, hts2, htv2⟩ := ih (i + 1) k ((k <<< 1) % 4294967296) t (by omega) (by omega)
      hknext (by rw [hknext, hk, pow_succ]; simp) (by omega) (by
        intro v hvk
        rw [htv v]
        by_cases hjv : j ≤ v
        · simp only [hjv, hvk, and_self, if_true]
          rcases Nat.eq_zero_or_pos i with h0 | h0
          · subst h0
            have hv0 : v = 0 := by simp at hk; omega
            subst hv0; simp
          · rw [size_of_pow_bounds i v h0 (by rw [← hk, ← hj]; exact hjv)
              (by rw [← hk]; exact hvk)]
        · have : ¬ (j ≤ v ∧ v < k) := by omega
          simp only [this, if_false]
          exact hv v (by omega))
    refine ⟨t2, ?_, hts2, htv2⟩
    rw [init_numbits_loop]; simp [hi16, ht, ht2]

/-- Whatever the table holds on entry, `init_numbits` succeeds and leaves `v.size` at every
index `v < 65536`. -/
theorem init_numbits_spec (tbl0 : Array Nat) (h0 : tbl0.size = 65536) :
    ∃ t, init_numbits tbl0 = some t ∧ t.size = 65536 ∧
      ∀ v, v < 65536 → t[v]? = some v.size :=
  init_numbits_loop_spec 17 0 0 1 tbl0 rfl (by omega) rfl rfl h0 (by intro v hv; omega)

theorem size_le_16 (v : Nat) (hv : v ≤ 65535) : v.size ≤ 16 :=
  Nat.size_le.mpr (by norm_num; omega)

theorem numbits_getD (v : Nat) (hv : v ≤ 65535) : numbits.getD v 0 = v.size := by
  obtain ⟨t, ht, _, htv⟩ := init_numbits_spec (Array.mkArray 65536 0) (by simp)
  have : numbits = t := by unfold numbits; rw [ht]; rfl
  rw [this, Array.getD_eq_get?, htv v (by omega)]; rfl

theorem numbits_getD_le (v : Nat) : numbits.getD v 0 ≤ 16 := by
  by_cases hv : v ≤ 65535
  · rw [numbits_getD v hv]; exact size_le_16 v hv
  · obtain ⟨t, ht, hts, _⟩ := init_numbits_spec (Array.mkArray 65536 0) (by simp)
    have : numbits = t := by unfold numbits; rw [ht]; rfl
    rw [this, Array.getD_eq_get?, Array.getElem?_size_le t v (by omega)]; simp

/-- C1. After `init_numbits` has run (on any contents of the 65536-entry table) no store has
left the table, `numbits[0] = 0`, every `v` in `[2^k, 2^(k+1)-1]` with `k <= 15` has
`numbits[v] = k+1`, and for every `v <= 65535` the entry is the length of the binary
representation of `v`, which is at most 16. -/
theorem init_numbits_correct (tbl0 : Array Nat) (h0 : tbl0.size = 65536) :
    ∃ t, init_numbits tbl0 = some t ∧ t.size = 65536 ∧ t[0]? = some 0 ∧
      (∀ k v, k ≤ 15 → 2 ^ k ≤ v → v ≤ 2 ^ (k + 1) - 1 → t[v]? = some (k + 1)) ∧
      (∀ v, v ≤ 65535 → t[v]? = some v.size ∧ v.size ≤ 16) := by
  obtain ⟨t, ht, hts, htv⟩ := init_numbits_spec tbl0 h0
  refine ⟨t, ht, hts, ?_, ?_, ?_⟩
  · rw [htv 0 (by omega)]; simp
  · intro k v hk h1 h2
    have hpos : 0 < 2 ^ (k + 1) := Nat.two_pow_pos _
    have hlt : v < 2 ^ (k + 1) := by omega
    have hle : 2 ^ (k + 1) ≤ 2 ^ 16 := Nat.pow_le_pow_right (by norm_num) (by omega)
    have h16 : (2 : Nat) ^ 16 = 65536 := by norm_num
    rw [htv v (by omega)]
    have a : v.size ≤ k + 1 := Nat.size_le.mpr hlt
    have b : k < v.size := Nat.lt_size.mpr h1
    congr 1; omega
  · intro v hv
    exact ⟨htv v (by omega), size_le_16 v hv⟩

/-- Witness of C1 on the zero-initialised static table. -/
theorem init_numbits_correct_witness :
    (Array.mkArray 65536 0).size = 65536 ∧
    ∃ t, init_numbits (Array.mkArray 65536 0) = some t ∧ t.size = 65536 ∧ t[0]? = some 0 ∧
      (∀ k v, k ≤ 15 → 2 ^ k ≤ v → v ≤ 2 ^ (k + 1) - 1 → t[v]? = some (k + 1)) ∧
      (∀ v, v ≤ 65535 → t[v]? = some v.size ∧ v.size ≤ 16) :=
  ⟨by simp, init_numbits_correct (Array.mkArray 65536 0) (by simp)⟩

/-! ## The residual encoder -/

theorem int_not_eq (x : Int) : ~~~x = -x - 1 := by
  cases x with
  | ofNat n => simp [Complement.complement, Int.not, Int.negSucc_eq]; omega
  | negSucc n => simp [Complement.complement, Int.not, Int.negSucc_eq]

theorem mask_eq (bits : Nat) (hb : bits ≤ 16) :
    4294967295 - (4294967295 <<< bits) % 4294967296 = 2 ^ bits - 1 := by
  interval_cases bits <;> decide

theorem payload_eq (data : Int) (bits : Nat) (hb : bits ≤ 16) :
    (data % 4294967296).toNat &&& (4294967295 - (4294967295 <<< bits) % 4294967296)
      = (data % 2 ^ bits).toNat := by
  rw [mask_eq bits hb, Nat.and_pow_two_sub_one_eq_mod]
  interval_cases bits <;> omega

/-- The writes of `write_diff`, with the category and the extra-bits value made explicit. -/
theorem write_diff_eq (tbl : Array Nat) (h : jpeg_huffman_encoder) (r : Int)
    (stream : List (Nat × Nat)) (hc : tbl.getD r.natAbs 0 ≤ 16) :
    write_diff tbl h r stream =
      stream ++ (h.ehufsi (tbl.getD r.natAbs 0), h.ehufco (tbl.getD r.natAbs 0)) ::
        (if tbl.getD r.natAbs 0 ≠ 16 then
          [(tbl.getD r.natAbs 0,
            ((if r < 0 then ~~~(-r) else r) % 2 ^ (tbl.getD r.natAbs 0)).toNat)]
        else []) := by
  have habs : (if r < 0 then -r else r).toNat = r.natAbs := by
    split <;> omega
  unfold write_diff jpeg_write_bits
  simp only [habs]
  by_cases h16 : tbl.getD r.natAbs 0 = 16
  · simp [h16]
  · simp only [ne_eq, h16, not_false_eq_true, if_true]
    rw [payload_eq _ _ hc]
    simp

/-- The category and payload of a nonzero residual of magnitude at most 32767 determine it. -/
theorem payload_decodes (r : Int) (hr0 : r ≠ 0) (hr : r.natAbs ≤ 32767) :
    1 ≤ numbits.getD r.natAbs 0 ∧ numbits.getD r.natAbs 0 ≤ 15 ∧
    (2 ^ (numbits.getD r.natAbs 0 - 1) ≤
        ((if r < 0 then ~~~(-r) else r) % 2 ^ (numbits.getD r.natAbs 0)).toNat →
      r = (((if r < 0 then ~~~(-r) else r) % 2 ^ (numbits.getD r.natAbs 0)).toNat : Int)) ∧
    (((if r < 0 then ~~~(-r) else r) % 2 ^ (numbits.getD r.natAbs 0)).toNat <
        2 ^ (numbits.getD r.natAbs 0 - 1) →
      r = (((if r < 0 then ~~~(-r) else r) % 2 ^ (numbits.getD r.natAbs 0)).toNat : Int)
        - (2 ^ (numbits.getD r.natAbs 0) - 1)) := by
  rw [numbits_getD _ (by omega)]
  have hpos : 0 < r.natAbs := by omega
  have h1 : 1 ≤ r.natAbs.size := Nat.size_pos.mpr hpos
  have h15 : r.natAbs.size ≤ 15 := Nat.size_le.mpr (by norm_num; omega)
  have hlo : 2 ^ (r.natAbs.size - 1) ≤ r.natAbs := Nat.lt_size.mp (by omega)
  have hhi : r.natAbs < 2 ^ r.natAbs.size := Nat.size_le.mp (le_refl _)
  refine ⟨h1, h15, ?_⟩
  rw [int_not_eq]
  generalize r.natAbs.size = c at h1 h15 hlo hhi ⊢
  interval_cases c <;> norm_num at hlo hhi ⊢ <;> constructor <;> intro hv <;> split at hv <;> omega

theorem payload_lt (x : Int) (c : Nat) : (x % 2 ^ c).toNat < 2 ^ c := by
  have hp : (0 : Int) < 2 ^ c := by positivity
  have h1 : 0 ≤ x % 2 ^ c := Int.emod_nonneg _ (ne_of_gt hp)
  have h2 : x % 2 ^ c < 2 ^ c := Int.emod_lt_of_pos _ hp
  zify
  rw [Int.toNat_of_nonneg h1]
  exact h2

/-- C2. For a nonzero residual `r` with `|r| <= 32767`, `write_diff` writes the entropy code
of the category `c = numbits[|r|]` (which lies in `1..15`) and then the payload `(c, v)` with
`v < 2^c`; `r = v` when `v >= 2^(c-1)` and `r = v - (2^c - 1)` when `v < 2^(c-1)`. Two such
residuals with the same payload write `(c, v)` are equal. -/
theorem write_diff_round_trip (h : jpeg_huffman_encoder) (r r2 : Int)
    (hr0 : r ≠ 0) (hr : r.natAbs ≤ 32767) (hr20 : r2 ≠ 0) (hr2 : r2.natAbs ≤ 32767) :
    (∃ v, write_diff numbits h r [] =
        [(h.ehufsi (numbits.getD r.natAbs 0), h.ehufco (numbits.getD r.natAbs 0)),
         (numbits.getD r.natAbs 0, v)] ∧
      1 ≤ numbits.getD r.natAbs 0 ∧ numbits.getD r.natAbs 0 ≤ 15 ∧
      v < 2 ^ (numbits.getD r.natAbs 0) ∧
      (2 ^ (numbits.getD r.natAbs 0 - 1) ≤ v → r = (v : Int)) ∧
      (v < 2 ^ (numbits.getD r.natAbs 0 - 1) →
        r = (v : Int) - (2 ^ (numbits.getD r.natAbs 0) - 1))) ∧
    ((write_diff numbits h r []).drop 1 = (write_diff numbits h r2 []).drop 1 → r = r2) := by
  obtain ⟨a1, a2, a3, a4⟩ := payload_decodes r hr0 hr
  obtain ⟨b1, b2, b3, b4⟩ := payload_decodes r2 hr20 hr2
  have e1 := write_diff_eq numbits h r [] (by omega)
  have e2 := write_diff_eq numbits h r2 [] (by omega)
  have n1 : numbits.getD r.natAbs 0 ≠ 16 := by omega
  have n2 : numbits.getD r2.natAbs 0 ≠ 16 := by omega
  simp only [ne_eq, n1, not_false_eq_true, if_true, List.nil_append] at e1
  simp only [ne_eq, n2, not_false_eq_true, if_true, List.nil_append] at e2
  refine ⟨⟨_, e1, a1, a2, payload_lt _ _, a3, a4⟩, ?_⟩
  intro heq
  rw [e1, e2] at heq
  simp only [List.drop_succ_cons, List.drop_zero, List.cons.injEq, Prod.mk.injEq,
    and_true] at heq
  obtain ⟨hc, hv⟩ := heq
  rw [← hc] at b3 b4 hv
  rw [← hv] at b3 b4
  rcases Nat.lt_or_ge
    (((if r < 0 then ~~~(-r) else r) % 2 ^ (numbits.getD r.natAbs 0)).toNat)
    (2 ^ (numbits.getD r.natAbs 0 - 1)) with hlt | hge
  · rw [a4 hlt, b4 hlt]
  · rw [a3 hge]; exact (b3 hge).symm ▸ rfl

/-- Witness of C2 at the residuals `-5` and `5`, which share the category 3 and differ in
the payload. -/
theorem write_diff_round_trip_witness :
    ((-5 : Int) ≠ 0 ∧ (-5 : Int).natAbs ≤ 32767 ∧ (5 : Int) ≠ 0 ∧ (5 : Int).natAbs ≤ 32767) ∧
    (∃ v, write_diff numbits encoder_example (-5) [] =
        [(encoder_example.ehufsi (numbits.getD (-5 : Int).natAbs 0),
          encoder_example.ehufco (numbits.getD (-5 : Int).natAbs 0)),
         (numbits.getD (-5 : Int).natAbs 0, v)] ∧
      1 ≤ numbits.getD (-5 : Int).natAbs 0 ∧ numbits.getD (-5 : Int).natAbs 0 ≤ 15 ∧
      v < 2 ^ (numbits.getD (-5 : Int).natAbs 0) ∧
      (2 ^ (numbits.getD (-5 : Int).natAbs 0 - 1) ≤ v → (-5 : Int) = (v : Int)) ∧
      (v < 2 ^ (numbits.getD (-5 : Int).natAbs 0 - 1) →
        (-5 : Int) = (v : Int) - (2 ^ (numbits.getD (-5 : Int).natAbs 0) - 1))) ∧
    ((write_diff numbits encoder_example (-5) []).drop 1 =
      (write_diff numbits encoder_example 5 []).drop 1 → (-5 : Int) = 5) :=
  ⟨by decide, write_diff_round_trip encoder_example (-5) 5
    (by decide) (by decide) (by decide) (by decide)⟩

/-- C3. For `|r| <= 65535`, with `c = numbits[|r|]` (the bit length of `|r|`, at most 16),
`write_diff` appends to the stream the write `(ehufsi[c], ehufco[c])` and then, exactly when
`c != 16`, one write of length `c` whose value is the low `c` bits of the extra-bits value
(`r` itself, or the complement of `|r|` for negative `r`) and is below `2^c`. For `r = 0` this
is the zero-length write of value 0; for `c = 16` the entropy code is the only write. -/
theorem write_diff_writes (h : jpeg_huffman_encoder) (r : Int) (stream : List (Nat × Nat))
    (hr : r.natAbs ≤ 65535) :
    numbits.getD r.natAbs 0 = r.natAbs.size ∧ numbits.getD r.natAbs 0 ≤ 16 ∧
    ((if r < 0 then ~~~(-r) else r) % 2 ^ (numbits.getD r.natAbs 0)).toNat
      < 2 ^ (numbits.getD r.natAbs 0) ∧
    write_diff numbits h r stream =
      stream ++ (h.ehufsi (numbits.getD r.natAbs 0), h.ehufco (numbits.getD r.natAbs 0)) ::
        (if numbits.getD r.natAbs 0 ≠ 16 then
          [(numbits.getD r.natAbs 0,
            ((if r < 0 then ~~~(-r) else r) % 2 ^ (numbits.getD r.natAbs 0)).toNat)]
        else []) ∧
    (r = 0 → write_diff numbits h r stream = stream ++ [(h.ehufsi 0, h.ehufco 0), (0, 0)]) ∧
    (numbits.getD r.natAbs 0 = 16 →
      write_diff numbits h r stream = stream ++ [(h.ehufsi 16, h.ehufco 16)]) := by
  have hc := numbits_getD_le r.natAbs
  have e := write_diff_eq numbits h r stream hc
  refine ⟨numbits_getD _ hr, hc, payload_lt _ _, e, ?_, ?_⟩
  · intro h0
    subst h0
    have hz : numbits.getD (0 : Int).natAbs 0 = 0 := by
      rw [numbits_getD _ (by simp)]; simp
    rw [e, hz]; simp
  · intro h16
    rw [e, h16]; simp

/-- Witness of C3 at the residual `-40000`, of category 16: the entropy code is the only
write. -/
theorem write_diff_writes_witness :
    (-40000 : Int).natAbs ≤ 65535 ∧
    write_diff numbits encoder_example (-40000) [] = [(216, 116)] := by
  obtain ⟨h1, _, _, _, _, h6⟩ := write_diff_writes encoder_example (-40000) [] (by decide)
  have hs : (-40000 : Int).natAbs.size = 16 := by
    have a : (-40000 : Int).natAbs.size ≤ 16 := Nat.size_le.mpr (by decide)
    have b : 15 < (-40000 : Int).natAbs.size := Nat.lt_size.mpr (by decide)
    omega
  exact ⟨by decide, by rw [h6 (h1.trans hs)]; rfl⟩

/-! ## The row walker -/

/-- Folding a visitor over a list of dispatched (residual, index) pairs. -/
theorem foldl_record (xs l : List (Int × Nat)) :
    List.foldl (fun s e => record e.1 e.2 s) l xs = l ++ xs := by
  induction xs generalizing l with
  | nil => simp
  | cons x xs ih =>
    rw [List.foldl_cons, ih]
    simp [record]

theorem range_two_step {α : Type} (f : Nat → α) (n : Nat) :
    (List.range (2 * (n + 1))).map f = f 0 :: f 1 :: (List.range (2 * n)).map (fun i => f (i + 2)) := by
  have : 2 * (n + 1) = (2 * n + 1) + 1 := by ring
  rw [this, List.range_succ_eq_map, List.map_cons, List.range_succ_eq_map, List.map_cons]
  simp [List.map_map, Function.comp_def]

/-- Closed form of the loop of `process_row`: with `n` iterations left it applies the visitor
to `2 * n` residuals, the first two against the predictor registers and every later one
against the sample two places before it. -/
theorem process_row_loop_eq {σ : Type} (fn : Int → Nat → σ → σ) (row1 : Mem)
    (cols table1 : Nat) :
    ∀ (n col p : Nat) (pred0 pred1 : Int) (s : σ), cols - col = n →
      process_row_loop fn row1 cols table1 col p pred0 pred1 s =
        List.foldl (fun s e => fn e.1 e.2 s) s
          ((List.range (2 * n)).map (fun i =>
            ((row1 (p + i) : Int) -
                (if i = 0 then pred0 else if i = 1 then pred1 else (row1 (p + i - 2) : Int)),
              if i % 2 = 0 then 0 else table1))) := by
  intro n
  induction n with
  | zero =>
    intro col p pred0 pred1 s hn
    have : ¬ col < cols := by omega
    rw [process_row_loop]; simp [this]
  | succ n ih =>
    intro col p pred0 pred1 s hn
    have hlt : col < cols := by omega
    rw [process_row_loop]
    simp only [hlt, if_true]
    rw [ih (col + 1) (p + 2) _ _ _ (by omega), range_two_step]
    simp only [List.foldl_cons]
    congr 1
    apply List.map_congr_left
    intro i _
    have e1 : p + 2 + i = p + (i + 2) := by ring
    have e2 : (i + 2) % 2 = i % 2 := by omega
    rcases i with _ | _ | i
    · simp
    · simp
    · simp [e1, e2]

theorem process_row_eq {σ : Type} (fn : Int → Nat → σ → σ) (row0 row1 : Mem)
    (cols table1 : Nat) (s : σ) :
    process_row fn row0 row1 cols table1 s =
      List.foldl (fun s e => fn e.1 e.2 s) s (row_residuals row0 row1 cols table1) := by
  unfold process_row row_residuals
  rw [process_row_loop_eq fn row1 cols table1 cols 0 0 _ _ s (by omega)]
  congr 1
  apply List.map_congr_left
  intro i _
  rcases i with _ | _ | i
  · simp
  · simp
  · have h : ¬ (i + 1 + 1 < 2) := by omega
    simp [h]

theorem process_row_record (row0 row1 : Mem) (cols table1 : Nat) (l : List (Int × Nat)) :
    process_row record row0 row1 cols table1 l = l ++ row_residuals row0 row1 cols table1 := by
  rw [process_row_eq, foldl_record]

theorem row_residuals_length (row0 row1 : Mem) (cols table1 : Nat) :
    (row_residuals row0 row1 cols table1).length = 2 * cols := by
  simp [row_residuals]

theorem row_residuals_getElem? (row0 row1 : Mem) (cols table1 i : Nat) (hi : i < 2 * cols) :
    (row_residuals row0 row1 cols table1)[i]? =
      some ((row1 i : Int) - (if i < 2 then (row0 i : Int) else (row1 (i - 2) : Int)),
        if i % 2 = 0 then 0 else table1) := by
  simp [row_residuals, List.getElem?_map, List.getElem?_range hi]

/-- C4. `process_row` dispatches exactly `2 * cols` residuals in position order: position `i`
carries `cur[i] - prev[i]` for `i < 2` and `cur[i] - cur[i-2]` for `i >= 2`, with `data[0]` at
even and `data[table1]` at odd positions; every visitor is applied to exactly these, in this
order; and for 16-bit samples the difference has magnitude at most 65535, so it is exact. -/
theorem process_row_dispatch {σ : Type} (fn : Int → Nat → σ → σ) (prev cur : Mem)
    (cols table1 : Nat) (s : σ) (i : Nat) (hi : i < 2 * cols) :
    (process_row record prev cur cols table1 []).length = 2 * cols ∧
    (process_row record prev cur cols table1 [])[i]? =
      some ((cur i : Int) - (if i < 2 then (prev i : Int) else (cur (i - 2) : Int)),
        if i % 2 = 0 then 0 else table1) ∧
    process_row fn prev cur cols table1 s =
      List.foldl (fun s e => fn e.1 e.2 s) s (process_row record prev cur cols table1 []) ∧
    (prev i ≤ 65535 → cur i ≤ 65535 → cur (i - 2) ≤ 65535 →
      ((cur i : Int) - (if i < 2 then (prev i : Int) else (cur (i - 2) : Int))).natAbs
        ≤ 65535) := by
  rw [process_row_record, List.nil_append]
  refine ⟨row_residuals_length _ _ _ _, row_residuals_getElem? _ _ _ _ _ hi,
    process_row_eq _ _ _ _ _ _, ?_⟩
  intro h1 h2 h3
  split <;> omega

/-- Witness of C4: position 2 of the row `[12,22,13,23]` after the row `[10,20,11,21]` carries
`13 - 12 = 1` and goes to `data[0]`. -/
theorem process_row_dispatch_witness :
    2 < 2 * 2 ∧
    (process_row record merged_first merged_second 2 1 [])[2]? = some (1, 0) :=
  ⟨by decide, (process_row_dispatch record merged_first merged_second 2 1 [] 2
    (by decide)).2.1.trans (by decide)⟩

/-! ## The row interleaver: merging and padding -/

theorem copy_loop_eq (data : Mem) (rowptr limit : Nat) :
    ∀ (n col ptr : Nat) (buf : Mem), limit - col = n → col ≤ limit →
      copy_loop data rowptr limit col ptr buf =
        (limit, ptr + n,
          fun j => if ptr ≤ j ∧ j < ptr + n then data (rowptr + col + (j - ptr)) else buf j) := by
  intro n
  induction n with
  | zero =>
    intro col ptr buf hn hle
    have h1 : ¬ col < limit := by omega
    have h2 : col = limit := by omega
    subst h2
    rw [copy_loop]
    simp only [h1, if_false, Nat.add_zero]
    congr 2
    funext j
    have : ¬ (ptr ≤ j ∧ j < ptr) := by omega
    simp [this]
  | succ n ih =>
    intro col ptr buf hn hle
    have h1 : col < limit := by omega
    rw [copy_loop]
    simp only [h1, if_true]
    rw [ih (col + 1) (ptr + 1) _ (by omega) (by omega)]
    congr 2
    · omega
    · funext j
      unfold store
      by_cases hj : j = ptr
      · subst hj
        have a : ¬ (j + 1 ≤ j ∧ j < j + 1 + n) := by omega
        have b : j ≤ j ∧ j < j + (n + 1) := by omega
        simp [a, b]
      · by_cases hr : ptr + 1 ≤ j ∧ j < ptr + 1 + n
        · have b : ptr ≤ j ∧ j < ptr + (n + 1) := by omega
          simp only [hr, b, and_self, if_true]
          congr 1; omega
        · have b : ¬ (ptr ≤ j ∧ j < ptr + (n + 1)) := by omega
          simp [hr, b, hj]

theorem pad_loop_eq (limit last0 last1 : Nat) :
    ∀ (n col ptr : Nat) (buf : Mem), col + 2 * n = limit →
      pad_loop limit last0 last1 col ptr buf =
        (ptr + 2 * n,
          fun j => if ptr ≤ j ∧ j < ptr + 2 * n then
            (if (j - ptr) % 2 = 0 then last0 else last1) else buf j) := by
  intro n
  induction n with
  | zero =>
    intro col ptr buf hn
    have h1 : ¬ col < limit := by omega
    rw [pad_loop]
    simp only [h1, if_false]
    congr 1
    funext j
    have : ¬ (ptr ≤ j ∧ j < ptr) := by omega
    simp [this]
  | succ n ih =>
    intro col ptr buf hn
    have h1 : col < limit := by omega
    rw [pad_loop]
    simp only [h1, if_true]
    rw [ih (col + 2) (ptr + 2) _ (by omega)]
    congr 1
    · omega
    · funext j
      unfold store
      by_cases hr : ptr + 2 ≤ j ∧ j < ptr + 2 + 2 * n
      · have b : ptr ≤ j ∧ j < ptr + 2 * (n + 1) := by omega
        have c : ((j - (ptr + 2)) % 2 = 0) = ((j - ptr) % 2 = 0) := by
          apply propext; constructor <;> intro h <;> omega
        simp only [hr, b, and_self, if_true, c]
      · by_cases hj : j = ptr + 1
        · subst hj
          have b : ptr ≤ ptr + 1 ∧ ptr + 1 < ptr + 2 * (n + 1) := by omega
          have c : ¬ ((ptr + 1 - ptr) % 2 = 0) := by omega
          simp [hr, b, c]
        · by_cases hj0 : j = ptr
          · subst hj0
            have b : j ≤ j ∧ j < j + 2 * (n + 1) := by omega
            simp [hr, b]
          · have b : ¬ (ptr ≤ j ∧ j < ptr + 2 * (n + 1)) := by omega
            simp [hr, b, hj, hj0]

/-- One pass of the body of the `vrow` loop for two channels: a copy of `2 * enc_cols`
source samples to `ptr`, then the replicated last pair up to `ptr + 2 * out_cols`. -/
theorem vrow_body_eq (data : Mem) (enc_cols out_cols rp ptr : Nat) (buf : Mem)
    (hle : enc_cols ≤ out_cols) (hpos : 1 ≤ enc_cols ∨ enc_cols = out_cols) :
    pad_loop (out_cols * 2)
        ((copy_loop data rp (enc_cols * 2) 0 ptr buf).2.2
          ((copy_loop data rp (enc_cols * 2) 0 ptr buf).2.1 - 2))
        ((copy_loop data rp (enc_cols * 2) 0 ptr buf).2.2
          ((copy_loop data rp (enc_cols * 2) 0 ptr buf).2.1 - 1))
        (copy_loop data rp (enc_cols * 2) 0 ptr buf).1
        (copy_loop data rp (enc_cols * 2) 0 ptr buf).2.1
        (copy_loop data rp (enc_cols * 2) 0 ptr buf).2.2 =
      (ptr + 2 * out_cols,
        fun j => if ptr ≤ j ∧ j < ptr + 2 * enc_cols then data (rp + (j - ptr))
          else if ptr + 2 * enc_cols ≤ j ∧ j < ptr + 2 * out_cols then
            data (rp + (2 * enc_cols - 2) + (j - ptr) % 2)
          else buf j) := by
  rw [copy_loop_eq data rp (enc_cols * 2) (enc_cols * 2) 0 ptr buf (by omega) (by omega)]
  simp only []
  rw [pad_loop_eq (out_cols * 2) _ _ (out_cols - enc_cols) (enc_cols * 2) _ _ (by omega)]
  congr 1
  · omega
  · funext j
    by_cases hP : ptr + enc_cols * 2 ≤ j ∧ j < ptr + enc_cols * 2 + 2 * (out_cols - enc_cols)
    · have hec : 1 ≤ enc_cols := by omega
      have a : ¬ (ptr ≤ j ∧ j < ptr + 2 * enc_cols) := by omega
      have b : ptr + 2 * enc_cols ≤ j ∧ j < ptr + 2 * out_cols := by omega
      have l0 : ptr ≤ ptr + enc_cols * 2 - 2 ∧ ptr + enc_cols * 2 - 2 < ptr + enc_cols * 2 := by
        omega
      have l1 : ptr ≤ ptr + enc_cols * 2 - 1 ∧ ptr + enc_cols * 2 - 1 < ptr + enc_cols * 2 := by
        omega
      simp only [hP, a, b, l0, l1, and_self, if_true, if_false]
      by_cases hpar : (j - (ptr + enc_cols * 2)) % 2 = 0
      · simp only [hpar, if_true]
        congr 1; omega
      · simp only [hpar, if_false]
        congr 1; omega
    · have b : ¬ (ptr + 2 * enc_cols ≤ j ∧ j < ptr + 2 * out_cols) := by omega
      simp only [hP, b, if_false]
      by_cases hQ : ptr ≤ j ∧ j < ptr + enc_cols * 2
      · have a : ptr ≤ j ∧ j < ptr + 2 * enc_cols := by omega
        simp only [hQ, a, and_self, if_true]
        rfl
      · have a : ¬ (ptr ≤ j ∧ j < ptr + 2 * enc_cols) := by omega
        simp only [hQ, a, if_false]

/-- Closed form of the merge of one row pair for two channels: the final `rowptr` and every
cell of the merged row. The padding cells exist only when `enc_cols < out_cols`, and then
`1 <= enc_cols` makes the last valid pair a pair of source samples. -/
theorem merge_loop_spec (data : Mem) (enc_cols out_cols row_width rowptr : Nat) (buf : Mem)
    (hle : enc_cols ≤ out_cols) (hpos : 1 ≤ enc_cols ∨ enc_cols = out_cols) :
    (merge_loop data enc_cols out_cols 2 row_width 0 rowptr 0 buf).1 = rowptr + 2 * row_width ∧
    ∀ j, (merge_loop data enc_cols out_cols 2 row_width 0 rowptr 0 buf).2 j =
      if j < 2 * enc_cols then data (rowptr + j)
      else if j < 2 * out_cols then data (rowptr + (2 * enc_cols - 2) + j % 2)
      else if j < 2 * out_cols + 2 * enc_cols then data (rowptr + row_width + (j - 2 * out_cols))
      else if j < 4 * out_cols then data (rowptr + row_width + (2 * enc_cols - 2) + j % 2)
      else buf j := by
  rw [merge_loop]
  simp only [show (0 : Nat) < 2 by omega, if_true]
  rw [vrow_body_eq data enc_cols out_cols rowptr 0 buf hle hpos]
  simp only []
  rw [merge_loop]
  simp only [show (0 + 1 : Nat) < 2 by omega, if_true]
  rw [vrow_body_eq data enc_cols out_cols _ _ _ hle hpos]
  simp only []
  rw [merge_loop]
  simp only [show ¬ (0 + 1 + 1 : Nat) < 2 by omega, if_false]
  refine ⟨by omega, ?_⟩
  intro j
  by_cases h1 : j < 2 * enc_cols
  · have a : ¬ (0 + 2 * out_cols ≤ j ∧ j < 0 + 2 * out_cols + 2 * enc_cols) := by omega
    have b : ¬ (0 + 2 * out_cols + 2 * enc_cols ≤ j ∧ j < 0 + 2 * out_cols + 2 * out_cols) := by
      omega
    have c : 0 ≤ j ∧ j < 0 + 2 * enc_cols := by omega
    simp only [a, b, c, h1, and_self, if_true, if_false]
    congr 1
  · by_cases h2 : j < 2 * out_cols
    · have a : ¬ (0 + 2 * out_cols ≤ j ∧ j < 0 + 2 * out_cols + 2 * enc_cols) := by omega
      have b : ¬ (0 + 2 * out_cols + 2 * enc_cols ≤ j ∧ j < 0 + 2 * out_cols + 2 * out_cols) := by
        omega
      have c : ¬ (0 ≤ j ∧ j < 0 + 2 * enc_cols) := by omega
      have d : 0 + 2 * enc_cols ≤ j ∧ j < 0 + 2 * out_cols := by omega
      simp only [a, b, c, d, h1, h2, and_self, if_true, if_false]
      congr 1
    · by_cases h3 : j < 2 * out_cols + 2 * enc_cols
      · have a : 0 + 2 * out_cols ≤ j ∧ j < 0 + 2 * out_cols + 2 * enc_cols := by omega
        simp only [a, h1, h2, h3, and_self, if_true, if_false]
        congr 1; omega
      · have a : ¬ (0 + 2 * out_cols ≤ j ∧ j < 0 + 2 * out_cols + 2 * enc_cols) := by omega
        have c : ¬ (0 ≤ j ∧ j < 0 + 2 * enc_cols) := by omega
        have d : ¬ (0 + 2 * enc_cols ≤ j ∧ j < 0 + 2 * out_cols) := by omega
        by_cases h4 : j < 4 * out_cols
        · have b : 0 + 2 * out_cols + 2 * enc_cols ≤ j ∧ j < 0 + 2 * out_cols + 2 * out_cols := by
            omega
          simp only [a, b, h1, h2, h3, h4, and_self, if_true, if_false]
          congr 1; omega
        · have b : ¬ (0 + 2 * out_cols + 2 * enc_cols ≤ j ∧
              j < 0 + 2 * out_cols + 2 * out_cols) := by omega
          simp only [a, b, c, d, h1, h2, h3, h4, if_false]

theorem cells_add (m : Mem) (a b : Nat) :
    cells m (a + b) = cells m a ++ (List.range b).map (fun i => m (a + i)) := by
  unfold cells
  rw [List.range_add, List.map_append, List.map_map]
  rfl

theorem replicate_pair_flatten (a b : Nat) (n : Nat) :
    (List.replicate n [a, b]).flatten =
      (List.range (2 * n)).map (fun i => if i % 2 = 0 then a else b) := by
  induction n with
  | zero => simp
  | succ n ih =>
    rw [List.replicate_succ, List.flatten_cons, ih, range_two_step]
    have e : ∀ i, (i + 2) % 2 = i % 2 := by intro i; omega
    simp [e]

theorem row_residuals_congr (row0 row0b row1 row1b : Mem) (cols table1 : Nat)
    (h0 : row0 0 = row0b 0) (h1 : row0 1 = row0b 1)
    (h : ∀ j, j < 2 * cols → row1 j = row1b j) :
    row_residuals row0 row1 cols table1 = row_residuals row0b row1b cols table1 := by
  unfold row_residuals
  apply List.map_congr_left
  intro i hi
  have hi2 : i < 2 * cols := List.mem_range.mp hi
  rw [h i hi2]
  by_cases h2 : i < 2
  · have : i = 0 ∨ i = 1 := by omega
    rcases this with rfl | rfl <;> simp [h0, h1]
  · simp only [h2, if_false]
    rw [h (i - 2) (by omega)]

/-- The first step of the row loop, spelled out. -/
theorem rows_loop_step {σ : Type} (fn : Int → Nat → σ → σ) (data : Mem)
    (enc_rows enc_cols out_cols channels bit_depth row_width table1 row rowptr : Nat)
    (vrow0 vrow1 : Mem) (s : σ) (h : row < enc_rows) :
    rows_loop fn data enc_rows enc_cols out_cols channels bit_depth row_width table1
        row rowptr vrow0 vrow1 s =
      rows_loop fn data enc_rows enc_cols out_cols channels bit_depth row_width table1
        (row + 2)
        (merge_loop data enc_cols out_cols channels row_width 0 rowptr 0 vrow1).1
        (merge_loop data enc_cols out_cols channels row_width 0 rowptr 0 vrow1).2
        (if row = 0 then store (store vrow0 1 (seed bit_depth)) 0 (seed bit_depth) else vrow0)
        (process_row fn
          (if row = 0 then store (store vrow0 1 (seed bit_depth)) 0 (seed bit_depth) else vrow0)
          (merge_loop data enc_cols out_cols channels row_width 0 rowptr 0 vrow1).2
          (out_cols * 2) table1 s) := by
  rw [rows_loop]
  simp only [h, if_true]

theorem rows_loop_done {σ : Type} (fn : Int → Nat → σ → σ) (data : Mem)
    (enc_rows enc_cols out_cols channels bit_depth row_width table1 row rowptr : Nat)
    (vrow0 vrow1 : Mem) (s : σ) (h : ¬ row < enc_rows) :
    rows_loop fn data enc_rows enc_cols out_cols channels bit_depth row_width table1
        row rowptr vrow0 vrow1 s = (row, s) := by
  rw [rows_loop]
  simp only [h, if_false]

/-- C6. With two channels and `enc_cols = out_cols`, the row the loop body of `process_image`
builds at row `2 * i` holds the first `2 * enc_cols` samples of source row `2 * i` followed by
the first `2 * enc_cols` samples of source row `2 * i + 1`, and this is the row it hands to
`process_row` (as the current row) before the two buffers are exchanged. -/
theorem row_merge {σ : Type} (fn : Int → Nat → σ → σ) (data : Mem)
    (enc_rows cols bit_depth row_width table1 i : Nat) (vrow0 vrow1 : Mem) (s : σ)
    (hi : 2 * i < enc_rows) :
    cells (merge_loop data cols cols 2 row_width 0 (2 * i * row_width) 0 vrow1).2 (4 * cols) =
      (List.range (2 * cols)).map (fun c => data (2 * i * row_width + c)) ++
      (List.range (2 * cols)).map (fun c => data ((2 * i + 1) * row_width + c)) ∧
    rows_loop fn data enc_rows cols cols 2 bit_depth row_width table1
        (2 * i) (2 * i * row_width) vrow0 vrow1 s =
      rows_loop fn data enc_rows cols cols 2 bit_depth row_width table1
        (2 * i + 2) (2 * (i + 1) * row_width)
        (merge_loop data cols cols 2 row_width 0 (2 * i * row_width) 0 vrow1).2
        (if 2 * i = 0 then store (store vrow0 1 (seed bit_depth)) 0 (seed bit_depth)
          else vrow0)
        (process_row fn
          (if 2 * i = 0 then store (store vrow0 1 (seed bit_depth)) 0 (seed bit_depth)
            else vrow0)
          (merge_loop data cols cols 2 row_width 0 (2 * i * row_width) 0 vrow1).2
          (cols * 2) table1 s) := by
  obtain ⟨hrp, hcell⟩ :=
    merge_loop_spec data cols cols row_width (2 * i * row_width) vrow1 (le_refl _) (Or.inr rfl)
  constructor
  · have e : 4 * cols = 2 * cols + 2 * cols := by ring
    rw [e, cells_add]
    unfold cells
    congr 1
    · apply List.map_congr_left
      intro c hc
      have hc2 : c < 2 * cols := List.mem_range.mp hc
      rw [hcell c]; simp [hc2]
    · apply List.map_congr_left
      intro c hc
      have hc2 : c < 2 * cols := List.mem_range.mp hc
      rw [hcell (2 * cols + c)]
      have a : ¬ (2 * cols + c < 2 * cols) := by omega
      have b : 2 * cols + c < 2 * cols + 2 * cols := by omega
      simp only [a, b, if_true, if_false]
      congr 1
      have : 2 * cols + c - 2 * cols = c := by omega
      rw [this]; ring
  · rw [rows_loop_step fn data enc_rows cols cols 2 bit_depth row_width table1 (2 * i)
      (2 * i * row_width) vrow0 vrow1 s hi, hrp]
    have : 2 * i * row_width + 2 * row_width = 2 * (i + 1) * row_width := by ring
    rw [this]

/-- Witness of C6: the row-merge example, rows `[10,20,30,40]` and `[11,21,31,41]`. -/
theorem row_merge_witness :
    2 * 0 < 2 ∧
    cells (merge_loop merge_example 2 2 2 4 0 (2 * 0 * 4) 0 (fun _ => 0)).2 (4 * 2) =
      [10, 20, 30, 40, 11, 21, 31, 41] :=
  ⟨by decide,
    (row_merge record merge_example 2 2 8 4 1 0 (fun _ => 0) (fun _ => 0) [] (by decide)).1.trans
      (by decide)⟩

/-- C7. With two channels and `1 <= enc_cols < out_cols`, the first `4 * out_cols` cells of
the row built at row `2 * i` are: the first `2 * enc_cols` samples of source row `2 * i`, then
`out_cols - enc_cols` copies of its last valid pair, then the same for source row `2 * i + 1`.
These are all the cells `process_row` reads from the current row, so what it does is the same
whatever the buffer held before. -/
theorem row_merge_padded {σ : Type} (fn : Int → Nat → σ → σ) (data : Mem)
    (enc_cols out_cols row_width table1 i : Nat) (prev vrow1 other : Mem) (s : σ)
    (h1 : 1 ≤ enc_cols) (h2 : enc_cols < out_cols) :
    cells (merge_loop data enc_cols out_cols 2 row_width 0 (2 * i * row_width) 0 vrow1).2
        (4 * out_cols) =
      (List.range (2 * enc_cols)).map (fun c => data (2 * i * row_width + c)) ++
      (List.replicate (out_cols - enc_cols)
        [data (2 * i * row_width + (2 * enc_cols - 2)),
         data (2 * i * row_width + (2 * enc_cols - 1))]).flatten ++
      (List.range (2 * enc_cols)).map (fun c => data ((2 * i + 1) * row_width + c)) ++
      (List.replicate (out_cols - enc_cols)
        [data ((2 * i + 1) * row_width + (2 * enc_cols - 2)),
         data ((2 * i + 1) * row_width + (2 * enc_cols - 1))]).flatten ∧
    (cells (merge_loop data enc_cols out_cols 2 row_width 0 (2 * i * row_width) 0 vrow1).2
        (4 * out_cols)).length = 4 * out_cols ∧
    process_row fn prev
        (merge_loop data enc_cols out_cols 2 row_width 0 (2 * i * row_width) 0 vrow1).2
        (out_cols * 2) table1 s =
      process_row fn prev
        (merge_loop data enc_cols out_cols 2 row_width 0 (2 * i * row_width) 0 other).2
        (out_cols * 2) table1 s := by
  obtain ⟨_, hcell⟩ := merge_loop_spec data enc_cols out_cols row_width (2 * i * row_width)
    vrow1 (le_of_lt h2) (Or.inl h1)
  obtain ⟨_, hcell2⟩ := merge_loop_spec data enc_cols out_cols row_width (2 * i * row_width)
    other (le_of_lt h2) (Or.inl h1)
  refine ⟨?_, by simp [cells], ?_⟩
  · have e : 4 * out_cols =
        2 * enc_cols + 2 * (out_cols - enc_cols) + 2 * enc_cols + 2 * (out_cols - enc_cols) := by
      omega
    rw [e, cells_add, cells_add, cells_add, replicate_pair_flatten, replicate_pair_flatten]
    unfold cells
    congr 1
    · congr 1
      · congr 1
        · apply List.map_congr_left
          intro c hc
          have hc2 : c < 2 * enc_cols := List.mem_range.mp hc
          rw [hcell c]; simp [hc2]
        · apply List.map_congr_left
          intro c hc
          have hc2 : c < 2 * (out_cols - enc_cols) := List.mem_range.mp hc
          rw [hcell (2 * enc_cols + c)]
          have a : ¬ (2 * enc_cols + c < 2 * enc_cols) := by omega
          have b : 2 * enc_cols + c < 2 * out_cols := by omega
          simp only [a, b, if_true, if_false]
          by_cases hp : c % 2 = 0
          · simp only [hp, if_true]
            congr 1; omega
          · simp only [hp, if_false]
            congr 1; omega
      · apply List.map_congr_left
        intro c hc
        have hc2 : c < 2 * enc_cols := List.mem_range.mp hc
        rw [hcell (2 * enc_cols + 2 * (out_cols - enc_cols) + c)]
        have a : ¬ (2 * enc_cols + 2 * (out_cols - enc_cols) + c < 2 * enc_cols) := by omega
        have b : ¬ (2 * enc_cols + 2 * (out_cols - enc_cols) + c < 2 * out_cols) := by omega
        have d : 2 * enc_cols + 2 * (out_cols - enc_cols) + c < 2 * out_cols + 2 * enc_cols := by
          omega
        simp only [a, b, d, if_true, if_false]
        congr 1
        have : 2 * enc_cols + 2 * (out_cols - enc_cols) + c - 2 * out_cols = c := by omega
        rw [this]; ring
    · apply List.map_congr_left
      intro c hc
      have hc2 : c < 2 * (out_cols - enc_cols) := List.mem_range.mp hc
      rw [hcell (2 * enc_cols + 2 * (out_cols - enc_cols) + 2 * enc_cols + c)]
      have a : ¬ (2 * enc_cols + 2 * (out_cols - enc_cols) + 2 * enc_cols + c < 2 * enc_cols) := by
        omega
      have b : ¬ (2 * enc_cols + 2 * (out_cols - enc_cols) + 2 * enc_cols + c < 2 * out_cols) := by
        omega
      have d : ¬ (2 * enc_cols + 2 * (out_cols - enc_cols) + 2 * enc_cols + c
          < 2 * out_cols + 2 * enc_cols) := by omega
      have f : 2 * enc_cols + 2 * (out_cols - enc_cols) + 2 * enc_cols + c < 4 * out_cols := by
        omega
      simp only [a, b, d, f, if_true, if_false]
      have g : (2 * i + 1) * row_width = 2 * i * row_width + row_width := by ring
      by_cases hp : c % 2 = 0
      · simp only [hp, if_true]
        congr 1; omega
      · simp only [hp, if_false]
        congr 1; omega
  · rw [process_row_eq, process_row_eq]
    congr 1
    apply row_residuals_congr _ _ _ _ _ _ rfl rfl
    intro j hj
    rw [hcell j, hcell2 j]
    have : j < 4 * out_cols := by omega
    simp only [this, if_true]

/-- Witness of C7: one valid column pair padded to three. -/
theorem row_merge_padded_witness :
    (1 ≤ 1 ∧ 1 < 3) ∧
    cells (merge_loop merge_example 1 3 2 4 0 (2 * 0 * 4) 0 (fun _ => 0)).2 (4 * 3) =
      [10, 20, 10, 20, 10, 20, 11, 21, 11, 21, 11, 21] :=
  ⟨by decide,
    (row_merge_padded record merge_example 1 3 4 1 0 (fun _ => 0) (fun _ => 0) (fun _ => 0) []
      (by decide) (by decide)).1.trans (by decide)⟩

/-! ## The row interleaver: the whole image -/

theorem filler_cols_eq {σ : Type} (fn : Int → Nat → σ → σ) (out_cols table1 : Nat) :
    ∀ (n col : Nat) (s : σ), out_cols * 2 - col = n →
      filler_cols fn out_cols table1 col s =
        List.foldl (fun s e => fn e.1 e.2 s) s (filler_residuals (2 * n) table1) := by
  intro n
  induction n with
  | zero =>
    intro col s hn
    have : ¬ col < out_cols * 2 := by omega
    rw [filler_cols]; simp [this, filler_residuals]
  | succ n ih =>
    intro col s hn
    have hlt : col < out_cols * 2 := by omega
    rw [filler_cols]
    simp only [hlt, if_true]
    rw [ih (col + 1) _ (by omega)]
    unfold filler_residuals
    rw [range_two_step]
    have e : ∀ i, (i + 2) % 2 = i % 2 := by intro i; omega
    simp [e]

theorem filler_residuals_add (a b table1 : Nat) (ha : a % 2 = 0) :
    filler_residuals (a + b) table1 = filler_residuals a table1 ++ filler_residuals b table1 := by
  unfold filler_residuals
  rw [List.range_add, List.map_append, List.map_map]
  congr 1
  apply List.map_congr_left
  intro i _
  have e : (a + i) % 2 = i % 2 := by omega
  simp [e]

theorem filler_rows_eq {σ : Type} (fn : Int → Nat → σ → σ) (out_rows out_cols table1 : Nat) :
    ∀ (n row : Nat) (s : σ), (out_rows - row + 1) / 2 = n →
      filler_rows fn out_rows out_cols table1 row s =
        List.foldl (fun s e => fn e.1 e.2 s) s (filler_residuals (n * (4 * out_cols)) table1) := by
  intro n
  induction n with
  | zero =>
    intro row s hn
    have : ¬ row < out_rows := by omega
    rw [filler_rows]; simp [this, filler_residuals]
  | succ n ih =>
    intro row s hn
    have hlt : row < out_rows := by omega
    rw [filler_rows]
    simp only [hlt, if_true]
    rw [ih (row + 2) _ (by omega), filler_cols_eq fn out_cols table1 (out_cols * 2) 0 s (by omega)]
    have e : (n + 1) * (4 * out_cols) = 2 * (out_cols * 2) + n * (4 * out_cols) := by ring
    rw [e, filler_residuals_add _ _ _ (by omega), List.foldl_append]

theorem rows_loop_eq {σ : Type} (fn : Int → Nat → σ → σ) (data : Mem)
    (enc_rows enc_cols out_cols channels bit_depth row_width table1 : Nat) :
    ∀ (n row rowptr : Nat) (vrow0 vrow1 : Mem) (s : σ), (enc_rows - row + 1) / 2 = n →
      rows_loop fn data enc_rows enc_cols out_cols channels bit_depth row_width table1
          row rowptr vrow0 vrow1 s =
        (row + 2 * n,
          List.foldl (fun s e => fn e.1 e.2 s) s
            (rows_residuals data enc_cols out_cols channels bit_depth row_width table1
              n row rowptr vrow0 vrow1)) := by
  intro n
  induction n with
  | zero =>
    intro row rowptr vrow0 vrow1 s hn
    have : ¬ row < enc_rows := by omega
    rw [rows_loop_done _ _ _ _ _ _ _ _ _ _ _ _ _ _ this]
    simp [rows_residuals]
  | succ n ih =>
    intro row rowptr vrow0 vrow1 s hn
    have hlt : row < enc_rows := by omega
    rw [rows_loop_step _ _ _ _ _ _ _ _ _ _ _ _ _ _ hlt, ih _ _ _ _ _ (by omega)]
    rw [rows_residuals, List.foldl_append, process_row_eq]
    congr 1
    omega

/-- Every visitor state `process_image` produces is the fold of the visitor over a list of
residuals that does not depend on the visitor: those of the row pairs, then the fillers. -/
theorem process_image_eq {σ : Type} (fn : Int → Nat → σ → σ) (data : Mem)
    (enc_rows out_rows enc_cols out_cols channels bit_depth row_width : Nat)
    (multi_table : Int) (vrows0 vrows1 : Mem) (s : σ) :
    process_image fn data enc_rows out_rows enc_cols out_cols channels bit_depth row_width
        multi_table vrows0 vrows1 s =
      List.foldl (fun s e => fn e.1 e.2 s) s
        (rows_residuals data enc_cols out_cols channels bit_depth row_width
            (table1_of multi_table) ((enc_rows + 1) / 2) 0 0 vrows0 vrows1 ++
          filler_residuals
            ((out_rows - 2 * ((enc_rows + 1) / 2) + 1) / 2 * (4 * out_cols))
            (table1_of multi_table)) := by
  unfold process_image
  rw [rows_loop_eq fn data enc_rows enc_cols out_cols channels bit_depth row_width
    (table1_of multi_table) ((enc_rows + 1) / 2) 0 0 vrows0 vrows1 s (by omega)]
  simp only []
  rw [filler_rows_eq fn out_rows out_cols (table1_of multi_table)
    ((out_rows - 2 * ((enc_rows + 1) / 2) + 1) / 2) _ _ (by omega), List.foldl_append]

theorem dispatched_eq (data : Mem)
    (enc_rows out_rows enc_cols out_cols channels bit_depth row_width : Nat)
    (multi_table : Int) (vrows0 vrows1 : Mem) :
    dispatched data enc_rows out_rows enc_cols out_cols channels bit_depth row_width
        multi_table vrows0 vrows1 =
      rows_residuals data enc_cols out_cols channels bit_depth row_width
          (table1_of multi_table) ((enc_rows + 1) / 2) 0 0 vrows0 vrows1 ++
        filler_residuals
          ((out_rows - 2 * ((enc_rows + 1) / 2) + 1) / 2 * (4 * out_cols))
          (table1_of multi_table) := by
  unfold dispatched
  rw [process_image_eq, foldl_record, List.nil_append]

theorem rows_residuals_length (data : Mem)
    (enc_cols out_cols channels bit_depth row_width table1 : Nat) :
    ∀ (n row rowptr : Nat) (vrow0 vrow1 : Mem),
      (rows_residuals data enc_cols out_cols channels bit_depth row_width table1
        n row rowptr vrow0 vrow1).length = n * (4 * out_cols) := by
  intro n
  induction n with
  | zero => intro row rowptr vrow0 vrow1; simp [rows_residuals]
  | succ n ih =>
    intro row rowptr vrow0 vrow1
    rw [rows_residuals, List.length_append, ih, row_residuals_length]
    ring

theorem filler_residuals_length (n table1 : Nat) : (filler_residuals n table1).length = n := by
  simp [filler_residuals]

theorem seed_eq (bit_depth : Nat) (h1 : 1 ≤ bit_depth) (h2 : bit_depth ≤ 16) :
    seed bit_depth = 2 ^ (bit_depth - 1) := by
  unfold seed
  rw [Nat.shiftLeft_eq, Nat.one_mul]
  apply Nat.mod_eq_of_lt
  calc 2 ^ (bit_depth - 1) ≤ 2 ^ 15 := Nat.pow_le_pow_right (by norm_num) (by omega)
    _ < 65536 := by norm_num

/-- The first two residuals of the `i`-th of `n` successive row pairs (two channels): the
first two samples of its first source row against the seed or the register contents for
`i = 0`, and against the first two samples of the row two above for `i >= 1`. -/
theorem rows_residuals_head (data : Mem) (enc_cols out_cols bit_depth row_width table1 : Nat)
    (hec : 1 ≤ enc_cols) (hle : enc_cols ≤ out_cols) :
    ∀ (n i row rowptr : Nat) (vrow0 vrow1 : Mem), i < n →
      (rows_residuals data enc_cols out_cols 2 bit_depth row_width table1
          n row rowptr vrow0 vrow1)[i * (4 * out_cols)]? =
        some ((data (rowptr + 2 * i * row_width) : Int) -
          (if i = 0 then (if row = 0 then (seed bit_depth : Int) else (vrow0 0 : Int))
            else (data (rowptr + (2 * i - 2) * row_width) : Int)), 0) ∧
      (rows_residuals data enc_cols out_cols 2 bit_depth row_width table1
          n row rowptr vrow0 vrow1)[i * (4 * out_cols) + 1]? =
        some ((data (rowptr + 2 * i * row_width + 1) : Int) -
          (if i = 0 then (if row = 0 then (seed bit_depth : Int) else (vrow0 1 : Int))
            else (data (rowptr + (2 * i - 2) * row_width + 1) : Int)), table1) := by
  intro n
  induction n with
  | zero => intro i row rowptr vrow0 vrow1 hi; omega
  | succ n ih =>
    intro i row rowptr vrow0 vrow1 hi
    obtain ⟨hrp, hcell⟩ := merge_loop_spec data enc_cols out_cols row_width rowptr vrow1 hle
      (Or.inl hec)
    have hm0 : (merge_loop data enc_cols out_cols 2 row_width 0 rowptr 0 vrow1).2 0
        = data rowptr := by
      rw [hcell 0]; simp [show 0 < 2 * enc_cols by omega]
    have hm1 : (merge_loop data enc_cols out_cols 2 row_width 0 rowptr 0 vrow1).2 1
        = data (rowptr + 1) := by
      rw [hcell 1]; simp [show 1 < 2 * enc_cols by omega]
    rw [rows_residuals]
    rcases i with _ | i
    · have l0 : 0 * (4 * out_cols) < (row_residuals
          (if row = 0 then store (store vrow0 1 (seed bit_depth)) 0 (seed bit_depth) else vrow0)
          (merge_loop data enc_cols out_cols 2 row_width 0 rowptr 0 vrow1).2
          (out_cols * 2) table1).length := by
        rw [row_residuals_length]; omega
      have l1 : 0 * (4 * out_cols) + 1 < (row_residuals
          (if row = 0 then store (store vrow0 1 (seed bit_depth)) 0 (seed bit_depth) else vrow0)
          (merge_loop data enc_cols out_cols 2 row_width 0 rowptr 0 vrow1).2
          (out_cols * 2) table1).length := by
        rw [row_residuals_length]; omega
      rw [List.getElem?_append_left l0, List.getElem?_append_left l1,
        row_residuals_getElem? _ _ _ _ _ (by omega), row_residuals_getElem? _ _ _ _ _ (by omega)]
      simp only [Nat.zero_mul, Nat.zero_add, hm0, hm1, Nat.mul_zero, Nat.add_zero, if_true]
      by_cases hrow : row = 0
      · simp [hrow, store]
      · simp [hrow]
    · have l0 : (row_residuals
          (if row = 0 then store (store vrow0 1 (seed bit_depth)) 0 (seed bit_depth) else vrow0)
          (merge_loop data enc_cols out_cols 2 row_width 0 rowptr 0 vrow1).2
          (out_cols * 2) table1).length ≤ (i + 1) * (4 * out_cols) := by
        rw [row_residuals_length]; nlinarith
      have l1 : (row_residuals
          (if row = 0 then store (store vrow0 1 (seed bit_depth)) 0 (seed bit_depth) else vrow0)
          (merge_loop data enc_cols out_cols 2 row_width 0 rowptr 0 vrow1).2
          (out_cols * 2) table1).length ≤ (i + 1) * (4 * out_cols) + 1 := by omega
      rw [List.getElem?_append_right l0, List.getElem?_append_right l1, row_residuals_length]
      have e0 : (i + 1) * (4 * out_cols) - 2 * (out_cols * 2) = i * (4 * out_cols) := by
        have : (i + 1) * (4 * out_cols) = i * (4 * out_cols) + 2 * (out_cols * 2) := by ring
        omega
      have e1 : (i + 1) * (4 * out_cols) + 1 - 2 * (out_cols * 2) = i * (4 * out_cols) + 1 := by
        have : (i + 1) * (4 * out_cols) = i * (4 * out_cols) + 2 * (out_cols * 2) := by ring
        omega
      rw [e0, e1]
      obtain ⟨a, b⟩ := ih i (row + 2)
        (merge_loop data enc_cols out_cols 2 row_width 0 rowptr 0 vrow1).1
        (merge_loop data enc_cols out_cols 2 row_width 0 rowptr 0 vrow1).2
        (if row = 0 then store (store vrow0 1 (seed bit_depth)) 0 (seed bit_depth) else vrow0)
        (by omega)
      rw [a, b, hrp, hm0, hm1]
      have g1 : rowptr + 2 * row_width + 2 * i * row_width = rowptr + 2 * (i + 1) * row_width := by
        ring
      have g2 : rowptr + (2 * (i + 1) - 2) * row_width = rowptr + 2 * i * row_width := by
        congr 2
      have hne : ¬ (i + 1 = 0) := by omega
      have hrow2 : ¬ (row + 2 = 0) := by omega
      simp only [g1, g2, hne, hrow2, if_false]
      rcases i with _ | i
      · simp
      · have g3 : rowptr + 2 * row_width + (2 * (i + 1) - 2) * row_width
            = rowptr + 2 * (i + 1) * row_width := by
          have : 2 * (i + 1) - 2 = 2 * i := by omega
          rw [this]; ring
        have hne2 : ¬ (i + 1 = 0) := by omega
        simp only [g3, hne2, if_false]
        exact ⟨trivial, trivial⟩

/-- C5 (refuted as stated). In the raster with rows `[10,20]`, `[11,21]`, `[12,22]`,
`[13,23]` the merged rows are `[10,20,11,21]` and `[12,22,13,23]`; at position 2 of the second
merged row the residual dispatched is `13 - 12 = 1`, not `13 - 11 = 2`, the difference to the
sample above. -/
theorem vertical_predictor_refuted :
    dispatched predictor_example 4 4 1 1 2 8 2 1 (fun _ => 0) (fun _ => 0) =
      [(-118, 0), (-108, 1), (1, 0), (1, 1), (2, 0), (2, 1), (1, 0), (1, 1)] ∧
    cells (merge_loop predictor_example 1 1 2 2 0 0 0 (fun _ => 0)).2 4 = cells merged_first 4 ∧
    cells (merge_loop predictor_example 1 1 2 2 0 4 0 (fun _ => 0)).2 4 = cells merged_second 4 ∧
    (process_row record merged_first merged_second 2 1 [])[2]? = some (1, 0) ∧
    (merged_second 2 : Int) - (merged_first 2 : Int) = 2 ∧
    ¬ ((process_row record merged_first merged_second 2 1 [])[2]? =
        some ((merged_second 2 : Int) - (merged_first 2 : Int), 0)) := by
  refine ⟨?_, ?_, ?_, ?_, ?_, ?_⟩
  · simp [dispatched, process_image, rows_loop, merge_loop, copy_loop, pad_loop, process_row,
      process_row_loop, filler_rows, record, store, seed, table1_of, predictor_example]
  · simp [merge_loop, copy_loop, pad_loop, store, predictor_example, merged_first, cells,
      List.range_succ]
  · simp [merge_loop, copy_loop, pad_loop, store, predictor_example, merged_second, cells,
      List.range_succ]
  · simp [process_row, process_row_loop, record, merged_first, merged_second]
  · simp [merged_first, merged_second]
  · simp [process_row, process_row_loop, record, merged_first, merged_second]

/-- C5 (amended). The residual `process_row` dispatches at position `x` is `cur[x] - prev[x]`
for `x < 2` and `cur[x] - cur[x-2]` for `2 <= x`: it is the difference to the previous row
exactly when `x < 2` or `cur[x-2] = prev[x]`. -/
theorem predictor_is_left_neighbour (prev cur : Mem) (cols table1 x : Nat)
    (hx : x < 2 * cols) :
    ∃ r k, (process_row record prev cur cols table1 [])[x]? = some (r, k) ∧
      (x < 2 → r = (cur x : Int) - (prev x : Int)) ∧
      (2 ≤ x → r = (cur x : Int) - (cur (x - 2) : Int)) ∧
      (r = (cur x : Int) - (prev x : Int) ↔ (x < 2 ∨ cur (x - 2) = prev x)) := by
  refine ⟨(cur x : Int) - (if x < 2 then (prev x : Int) else (cur (x - 2) : Int)),
    if x % 2 = 0 then 0 else table1, ?_, ?_, ?_, ?_⟩
  · rw [process_row_record, List.nil_append]
    exact row_residuals_getElem? _ _ _ _ _ hx
  · intro h; simp [h]
  · intro h
    have : ¬ x < 2 := by omega
    simp [this]
  · by_cases h : x < 2
    · simp [h]
    · simp only [h, if_false, false_or]
      constructor
      · intro e; omega
      · intro e; rw [e]

/-- Witness of C5 (amended): position 2 of the row `[12,22,13,23]` after `[10,20,11,21]`. -/
theorem predictor_is_left_neighbour_witness :
    2 < 2 * 2 ∧
    ∃ r k, (process_row record merged_first merged_second 2 1 [])[2]? = some (r, k) ∧
      (2 < 2 → r = (merged_second 2 : Int) - (merged_first 2 : Int)) ∧
      (2 ≤ 2 → r = (merged_second 2 : Int) - (merged_second (2 - 2) : Int)) ∧
      (r = (merged_second 2 : Int) - (merged_first 2 : Int) ↔
        (2 < 2 ∨ merged_second (2 - 2) = merged_first 2)) :=
  ⟨by decide, predictor_is_left_neighbour merged_first merged_second 2 1 2 (by decide)⟩

/-- C8. With two channels, `1 <= bit_depth <= 16` and `1 <= enc_cols <= out_cols`, the
residuals of row pair `i` (for `2 * i < enc_rows`) start at index `i * (4 * out_cols)` of the
dispatched sequence, and its first two are the first two samples of source row `2 * i` minus
`2^(bit_depth-1)` when `i = 0`, minus the first two samples of source row `2 * i - 2` when
`i >= 1`; the first goes to `data[0]`, the second to `data[table1]`. -/
theorem predictor_seeding (data : Mem)
    (enc_rows out_rows enc_cols out_cols bit_depth row_width : Nat) (multi_table : Int)
    (vrows0 vrows1 : Mem) (i : Nat)
    (hb1 : 1 ≤ bit_depth) (hb2 : bit_depth ≤ 16) (hec : 1 ≤ enc_cols)
    (hle : enc_cols ≤ out_cols) (hi : 2 * i < enc_rows) :
    (dispatched data enc_rows out_rows enc_cols out_cols 2 bit_depth row_width multi_table
        vrows0 vrows1)[i * (4 * out_cols)]? =
      some ((data (2 * i * row_width) : Int) -
        (if i = 0 then (2 : Int) ^ (bit_depth - 1)
          else (data ((2 * i - 2) * row_width) : Int)), 0) ∧
    (dispatched data enc_rows out_rows enc_cols out_cols 2 bit_depth row_width multi_table
        vrows0 vrows1)[i * (4 * out_cols) + 1]? =
      some ((data (2 * i * row_width + 1) : Int) -
        (if i = 0 then (2 : Int) ^ (bit_depth - 1)
          else (data ((2 * i - 2) * row_width + 1) : Int)), table1_of multi_table) := by
  have hn : i < (enc_rows + 1) / 2 := by omega
  obtain ⟨a, b⟩ := rows_residuals_head data enc_cols out_cols bit_depth row_width
    (table1_of multi_table) hec hle ((enc_rows + 1) / 2) i 0 0 vrows0 vrows1 hn
  have hlen := rows_residuals_length data enc_cols out_cols 2 bit_depth row_width
    (table1_of multi_table) ((enc_rows + 1) / 2) 0 0 vrows0 vrows1
  have hblock : (i + 1) * (4 * out_cols) ≤ (enc_rows + 1) / 2 * (4 * out_cols) :=
    Nat.mul_le_mul_right _ hn
  have hexp : (i + 1) * (4 * out_cols) = i * (4 * out_cols) + 4 * out_cols := by ring
  have l0 : i * (4 * out_cols) < (rows_residuals data enc_cols out_cols 2 bit_depth row_width
      (table1_of multi_table) ((enc_rows + 1) / 2) 0 0 vrows0 vrows1).length := by
    rw [hlen]; omega
  have l1 : i * (4 * out_cols) + 1 < (rows_residuals data enc_cols out_cols 2 bit_depth
      row_width (table1_of multi_table) ((enc_rows + 1) / 2) 0 0 vrows0 vrows1).length := by
    rw [hlen]; omega
  have hs : ((seed bit_depth : Nat) : Int) = (2 : Int) ^ (bit_depth - 1) := by
    rw [seed_eq bit_depth hb1 hb2]; push_cast; rfl
  rw [dispatched_eq, List.getElem?_append_left l0, List.getElem?_append_left l1, a, b]
  simp only [Nat.zero_add, if_true, hs]
  exact ⟨trivial, trivial⟩

/-- Witness of C8: the second row pair of `predictor_example` at bit depth 8 starts with
`12 - 10 = 2`. -/
theorem predictor_seeding_witness :
    (1 ≤ 8 ∧ 8 ≤ 16 ∧ 1 ≤ 1 ∧ 1 ≤ 1 ∧ 2 * 1 < 4) ∧
    (dispatched predictor_example 4 4 1 1 2 8 2 1 (fun _ => 0) (fun _ => 0))[1 * (4 * 1)]? =
      some (2, 0) ∧
    (dispatched predictor_example 4 4 1 1 2 8 2 1 (fun _ => 0) (fun _ => 0))[1 * (4 * 1) + 1]? =
      some (2, 1) :=
  ⟨by decide,
    (predictor_seeding predictor_example 4 4 1 1 8 2 1 (fun _ => 0) (fun _ => 0) 1
      (by decide) (by decide) (by decide) (by decide) (by decide)).1.trans (by decide),
    (predictor_seeding predictor_example 4 4 1 1 8 2 1 (fun _ => 0) (fun _ => 0) 1
      (by decide) (by decide) (by decide) (by decide) (by decide)).2.trans (by decide)⟩

/-! ## Counting the residuals -/

theorem dispatched_length (data : Mem)
    (enc_rows out_rows enc_cols out_cols channels bit_depth row_width : Nat)
    (multi_table : Int) (vrows0 vrows1 : Mem) (ho : out_rows % 2 = 0)
    (hrows : enc_rows ≤ out_rows) :
    (dispatched data enc_rows out_rows enc_cols out_cols channels bit_depth row_width
      multi_table vrows0 vrows1).length = 2 * out_rows * out_cols := by
  rw [dispatched_eq, List.length_append, rows_residuals_length, filler_residuals_length,
    ← Nat.add_mul]
  have h : (enc_rows + 1) / 2 + (out_rows - 2 * ((enc_rows + 1) / 2) + 1) / 2 = out_rows / 2 := by
    omega
  rw [h]
  obtain ⟨k, hk⟩ : ∃ k, out_rows = 2 * k := ⟨out_rows / 2, by omega⟩
  subst hk
  have : 2 * k / 2 = k := by omega
  rw [this]; ring

theorem row_residuals_slot (row0 row1 : Mem) (cols table1 : Nat) :
    ∀ e ∈ row_residuals row0 row1 cols table1, e.2 = 0 ∨ e.2 = table1 := by
  intro e he
  unfold row_residuals at he
  obtain ⟨i, _, rfl⟩ := List.mem_map.mp he
  by_cases h : i % 2 = 0 <;> simp [h]

theorem filler_residuals_slot (n table1 : Nat) :
    ∀ e ∈ filler_residuals n table1, e.2 = 0 ∨ e.2 = table1 := by
  intro e he
  unfold filler_residuals at he
  obtain ⟨i, _, rfl⟩ := List.mem_map.mp he
  by_cases h : i % 2 = 0 <;> simp [h]

theorem rows_residuals_slot (data : Mem)
    (enc_cols out_cols channels bit_depth row_width table1 : Nat) :
    ∀ (n row rowptr : Nat) (vrow0 vrow1 : Mem),
      ∀ e ∈ rows_residuals data enc_cols out_cols channels bit_depth row_width table1
        n row rowptr vrow0 vrow1, e.2 = 0 ∨ e.2 = table1 := by
  intro n
  induction n with
  | zero => intro row rowptr vrow0 vrow1 e he; simp [rows_residuals] at he
  | succ n ih =>
    intro row rowptr vrow0 vrow1 e he
    rw [rows_residuals] at he
    rcases List.mem_append.mp he with h | h
    · exact row_residuals_slot _ _ _ _ e h
    · exact ih _ _ _ _ e h

theorem dispatched_slot (data : Mem)
    (enc_rows out_rows enc_cols out_cols channels bit_depth row_width : Nat)
    (multi_table : Int) (vrows0 vrows1 : Mem) :
    ∀ e ∈ dispatched data enc_rows out_rows enc_cols out_cols channels bit_depth row_width
      multi_table vrows0 vrows1, e.2 = 0 ∨ e.2 = table1_of multi_table := by
  intro e he
  rw [dispatched_eq] at he
  rcases List.mem_append.mp he with h | h
  · exact rows_residuals_slot _ _ _ _ _ _ _ _ _ _ _ _ e h
  · exact filler_residuals_slot _ _ e h

theorem sum_store (g : Mem) (c : Nat) :
    ∀ n, c < n →
      ((List.range n).map (store g c (g c + 1))).sum = ((List.range n).map g).sum + 1 := by
  intro n
  induction n with
  | zero => intro h; omega
  | succ n ih =>
    intro h
    rw [List.range_succ, List.map_append, List.map_append, List.sum_append, List.sum_append]
    by_cases hc : c = n
    · subst hc
      have : (List.range c).map (store g c (g c + 1)) = (List.range c).map g := by
        apply List.map_congr_left
        intro i hi
        have : i ≠ c := by have := List.mem_range.mp hi; omega
        simp [store, this]
      rw [this]
      simp [store]; ring
    · rw [ih (by omega)]
      have : n ≠ c := fun h => hc h.symm
      simp [store, this]; ring

theorem count_diff_eq (tbl : Array Nat) (d : Int) (freq : Mem) :
    count_diff tbl d freq =
      store freq (tbl.getD d.natAbs 0) (freq (tbl.getD d.natAbs 0) + 1) := by
  have habs : (if d < 0 then -d else d).toNat = d.natAbs := by
    split <;> omega
  unfold count_diff
  simp only [habs]

theorem total_count (tbl : Array Nat) (d : Int) (k : Nat) (freq : Nat → Mem) (hk : k < 2)
    (n : Nat) (hc : tbl.getD d.natAbs 0 < n) :
    ((List.range 2).map (fun t =>
        ((List.range n).map (count_visitor tbl d k freq t)).sum)).sum =
      ((List.range 2).map (fun t => ((List.range n).map (freq t)).sum)).sum + 1 := by
  have r2 : List.range 2 = [0, 1] := by decide
  have hs := sum_store (freq k) _ n hc
  rw [r2]
  have hk2 : k = 0 ∨ k = 1 := by omega
  have e1 : ∀ t, t = k → count_visitor tbl d k freq t =
      store (freq k) (tbl.getD d.natAbs 0) (freq k (tbl.getD d.natAbs 0) + 1) := by
    intro t ht
    subst ht
    unfold count_visitor
    rw [if_pos rfl, count_diff_eq]
  have e2 : ∀ t, t ≠ k → count_visitor tbl d k freq t = freq t := by
    intro t ht
    unfold count_visitor
    rw [if_neg ht]
  simp only [List.map_cons, List.map_nil, List.sum_cons, List.sum_nil]
  rcases hk2 with rfl | rfl
  · rw [e1 0 rfl, e2 1 (by omega), hs]; omega
  · rw [e1 1 rfl, e2 0 (by omega), hs]; omega

/-- One call of `count_diff` through `data[k]`, `k < 2`, adds exactly one to the sum of all
histogram cells. -/
theorem freq_total_count (d : Int) (k : Nat) (freq : Nat → Mem) (hk : k < 2) :
    freq_total (count_visitor numbits d k freq) = freq_total freq + 1 :=
  total_count numbits d k freq hk 256 (lt_of_le_of_lt (numbits_getD_le _) (by norm_num))

theorem freq_total_foldl (es : List (Int × Nat)) :
    ∀ (freq : Nat → Mem), (∀ e ∈ es, e.2 < 2) →
      freq_total (List.foldl (fun s e => count_visitor numbits e.1 e.2 s) freq es)
        = freq_total freq + es.length := by
  induction es with
  | nil => intro freq _; simp
  | cons e es ih =>
    intro freq h
    rw [List.foldl_cons, ih _ (fun x hx => h x (List.mem_cons_of_mem _ hx)),
      freq_total_count _ _ _ (h e (List.mem_cons_self _ _)), List.length_cons]
    omega

theorem sum_zero_cells (n : Nat) : ((List.range n).map (fun _ => 0)).sum = 0 := by
  induction n with
  | zero => simp
  | succ n ih => rw [List.range_succ, List.map_append, List.sum_append, ih]; simp

theorem freq_total_zero : freq_total (fun _ _ => 0) = 0 := by
  have r2 : List.range 2 = [0, 1] := by decide
  unfold freq_total
  rw [r2]
  simp only [List.map_cons, List.map_nil, List.sum_cons, List.sum_nil, sum_zero_cells,
    Nat.add_zero]

/-- After pass 1 the histogram cells sum to the number of residuals dispatched. -/
theorem pass1_total (data : Mem)
    (enc_rows out_rows enc_cols out_cols channels bit_depth row_width : Nat)
    (vrows0 vrows1 : Mem) :
    freq_total (pass1 data enc_rows out_rows enc_cols out_cols channels bit_depth row_width
        vrows0 vrows1) =
      (dispatched data enc_rows out_rows enc_cols out_cols channels bit_depth row_width 1
        vrows0 vrows1).length := by
  unfold pass1
  rw [process_image_eq, ← dispatched_eq, freq_total_foldl, freq_total_zero, Nat.zero_add]
  intro e he
  rcases dispatched_slot _ _ _ _ _ _ _ _ _ _ _ e he with h | h
  · omega
  · rw [h]; decide

/-- C9. For even `enc_rows < out_rows` (`out_rows` even), the residuals `process_image`
dispatches are those of the real row pairs (the run with `out_rows = enc_rows`, of length
`enc_rows / 2 * (4 * out_cols)`) followed by `(out_rows - enc_rows) / 2 * (4 * out_cols)`
residuals that are all `0`, alternating between `data[0]` and `data[table1]`, `data[0]` first;
this tail does not mention the raster. -/
theorem filler_rows_zero (data : Mem)
    (enc_rows out_rows enc_cols out_cols channels bit_depth row_width : Nat)
    (multi_table : Int) (vrows0 vrows1 : Mem)
    (he : enc_rows % 2 = 0) (ho : out_rows % 2 = 0) (hlt : enc_rows < out_rows) :
    dispatched data enc_rows out_rows enc_cols out_cols channels bit_depth row_width
        multi_table vrows0 vrows1 =
      dispatched data enc_rows enc_rows enc_cols out_cols channels bit_depth row_width
          multi_table vrows0 vrows1 ++
        (List.range ((out_rows - enc_rows) / 2 * (4 * out_cols))).map
          (fun i => ((0 : Int), if i % 2 = 0 then 0 else table1_of multi_table)) ∧
    (dispatched data enc_rows enc_rows enc_cols out_cols channels bit_depth row_width
        multi_table vrows0 vrows1).length = enc_rows / 2 * (4 * out_cols) := by
  have h1 : (enc_rows - 2 * ((enc_rows + 1) / 2) + 1) / 2 = 0 := by omega
  have h2 : (out_rows - 2 * ((enc_rows + 1) / 2) + 1) / 2 = (out_rows - enc_rows) / 2 := by omega
  have h3 : (enc_rows + 1) / 2 = enc_rows / 2 := by omega
  have hreal : dispatched data enc_rows enc_rows enc_cols out_cols channels bit_depth row_width
      multi_table vrows0 vrows1 =
      rows_residuals data enc_cols out_cols channels bit_depth row_width
        (table1_of multi_table) ((enc_rows + 1) / 2) 0 0 vrows0 vrows1 := by
    rw [dispatched_eq, h1]
    simp [filler_residuals]
  constructor
  · rw [hreal, dispatched_eq, h2]
    rfl
  · rw [hreal, rows_residuals_length, h3]

/-- Witness of C9: two real rows padded to six give two filler row pairs, eight zero
residuals. -/
theorem filler_rows_zero_witness :
    (2 % 2 = 0 ∧ 6 % 2 = 0 ∧ 2 < 6) ∧
    dispatched predictor_example 2 6 1 1 2 8 2 1 (fun _ => 0) (fun _ => 0) =
      dispatched predictor_example 2 2 1 1 2 8 2 1 (fun _ => 0) (fun _ => 0) ++
        [(0, 0), (0, 1), (0, 0), (0, 1), (0, 0), (0, 1), (0, 0), (0, 1)] ∧
    (dispatched predictor_example 2 2 1 1 2 8 2 1 (fun _ => 0) (fun _ => 0)).length = 4 :=
  ⟨by decide,
    (filler_rows_zero predictor_example 2 6 1 1 2 8 2 1 (fun _ => 0) (fun _ => 0)
      (by decide) (by decide) (by decide)).1.trans (congrArg _ (by decide)),
    (filler_rows_zero predictor_example 2 6 1 1 2 8 2 1 (fun _ => 0) (fun _ => 0)
      (by decide) (by decide) (by decide)).2⟩

/-- C10 (refuted as stated). For a raster of four rows of four column pairs
(`enc_rows = out_rows = 4`, `enc_cols = out_cols = 4`, two channels) pass 1 counts 32
residuals, not `out_rows * out_cols = 16`. -/
theorem histogram_total_refuted :
    freq_total (pass1 count_example 4 4 4 4 2 8 8 (fun _ => 0) (fun _ => 0)) = 32 ∧
    (dispatched count_example 4 4 4 4 2 8 8 1 (fun _ => 0) (fun _ => 0)).length = 32 ∧
    freq_total (pass1 count_example 4 4 4 4 2 8 8 (fun _ => 0) (fun _ => 0)) ≠ 4 * 4 := by
  have h := pass1_total count_example 4 4 4 4 2 8 8 (fun _ => 0) (fun _ => 0)
  have l := dispatched_length count_example 4 4 4 4 2 8 8 1 (fun _ => 0) (fun _ => 0)
    (by decide) (by decide)
  rw [l] at h
  exact ⟨h, l, by rw [h]; decide⟩

/-- C10 (amended). For two channels, even `out_rows >= enc_rows` and
`out_cols >= enc_cols >= 1`, the histogram cells of both routes sum after pass 1 to
`2 * out_rows * out_cols`, the number of residuals `process_image` dispatches (one per sample
of the `out_rows / 2` rows of `out_cols * 2` pairs declared in the header). -/
theorem histogram_total (data : Mem)
    (enc_rows out_rows enc_cols out_cols bit_depth row_width : Nat) (vrows0 vrows1 : Mem)
    (ho : out_rows % 2 = 0) (hrows : enc_rows ≤ out_rows)
    (_hec : 1 ≤ enc_cols) (_hle : enc_cols ≤ out_cols) :
    freq_total (pass1 data enc_rows out_rows enc_cols out_cols 2 bit_depth row_width
        vrows0 vrows1) = 2 * out_rows * out_cols ∧
    (dispatched data enc_rows out_rows enc_cols out_cols 2 bit_depth row_width 1
        vrows0 vrows1).length = 2 * out_rows * out_cols ∧
    2 * out_rows * out_cols = out_rows / 2 * (out_cols * 2) * 2 := by
  refine ⟨?_, dispatched_length _ _ _ _ _ _ _ _ _ _ _ ho hrows, ?_⟩
  · rw [pass1_total, dispatched_length _ _ _ _ _ _ _ _ _ _ _ ho hrows]
  · obtain ⟨k, hk⟩ : ∃ k, out_rows = 2 * k := ⟨out_rows / 2, by omega⟩
    subst hk
    have : 2 * k / 2 = k := by omega
    rw [this]; ring

/-- Witness of C10 (amended): the raster of four rows of four column pairs totals 32. -/
theorem histogram_total_witness :
    (4 % 2 = 0 ∧ 4 ≤ 4 ∧ 1 ≤ 4 ∧ 4 ≤ 4) ∧
    freq_total (pass1 count_example 4 4 4 4 2 8 8 (fun _ => 0) (fun _ => 0)) = 2 * 4 * 4 :=
  ⟨by decide, (histogram_total count_example 4 4 4 4 8 8 (fun _ => 0) (fun _ => 0)
    (by decide) (by decide) (by decide) (by decide)).1⟩

/-! ## The statistics collector and the escape category -/

theorem natAbs_neg_toNat (d : Int) : (if d < 0 then -d else d).toNat = d.natAbs := by
  split <;> omega

/-- C11. For `|r| <= 65535`, `count_diff` adds one to `freq[numbits[|r|]]` and leaves every
other cell of `freq` as it was; through `data[k]` it leaves the histogram of every other
route as it was; it returns the bit stream it was handed; `r` and `-r` have the same effect;
and the index `numbits[|r|]` is at most 16. -/
theorem count_diff_effect (r : Int) (freq : Mem) (routes : Nat → Mem) (k : Nat)
    (stream : List (Nat × Nat)) (hr : r.natAbs ≤ 65535) :
    count_diff numbits r freq (numbits.getD r.natAbs 0) = freq (numbits.getD r.natAbs 0) + 1 ∧
    (∀ c, c ≠ numbits.getD r.natAbs 0 → count_diff numbits r freq c = freq c) ∧
    count_visitor numbits r k routes k = count_diff numbits r (routes k) ∧
    (∀ t, t ≠ k → count_visitor numbits r k routes t = routes t) ∧
    count_diff_call numbits stream r freq = (stream, count_diff numbits r freq) ∧
    (count_diff_call numbits stream r freq).1 = stream ∧
    count_diff numbits (-r) freq = count_diff numbits r freq ∧
    numbits.getD r.natAbs 0 = r.natAbs.size ∧ numbits.getD r.natAbs 0 ≤ 16 := by
  refine ⟨?_, ?_, ?_, ?_, rfl, rfl, ?_, numbits_getD _ hr, numbits_getD_le _⟩
  · rw [count_diff_eq]; simp [store]
  · intro c hc
    rw [count_diff_eq]
    unfold store
    rw [if_neg hc]
  · simp [count_visitor]
  · intro t ht
    simp [count_visitor, ht]
  · rw [count_diff_eq, count_diff_eq, Int.natAbs_neg]

/-- Witness of C11 at the residual `-5`, of category 3. -/
theorem count_diff_effect_witness :
    (-5 : Int).natAbs ≤ 65535 ∧
    count_diff numbits (-5) (fun _ => 0) (numbits.getD (-5 : Int).natAbs 0) = 0 + 1 ∧
    count_diff numbits (- (-5)) (fun _ => 0) = count_diff numbits (-5) (fun _ => 0) :=
  ⟨by decide,
    (count_diff_effect (-5) (fun _ => 0) (fun _ _ => 0) 0 [] (by decide)).1,
    (count_diff_effect (-5) (fun _ => 0) (fun _ _ => 0) 0 [] (by decide)).2.2.2.2.2.2.1⟩

theorem size_eq_16 (v : Nat) (h1 : 32768 ≤ v) (h2 : v ≤ 65535) : v.size = 16 := by
  have a : v.size ≤ 16 := Nat.size_le.mpr (by norm_num; omega)
  have b : 15 < v.size := Nat.lt_size.mpr (by norm_num; omega)
  omega

/-- Every residual of magnitude `32768..65535` is written as the entropy code of category 16
alone. -/
theorem write_diff_escape (h : jpeg_huffman_encoder) (r : Int) (stream : List (Nat × Nat))
    (h1 : 32768 ≤ r.natAbs) (h2 : r.natAbs ≤ 65535) :
    write_diff numbits h r stream = stream ++ [(h.ehufsi 16, h.ehufco 16)] := by
  have hc : numbits.getD r.natAbs 0 = 16 := by
    rw [numbits_getD _ h2]; exact size_eq_16 _ h1 h2
  rw [write_diff_eq numbits h r stream (by omega), hc]
  simp

/-- C12. Every residual `r` with `32768 <= |r| <= 65535` makes `write_diff` issue the single
write `(ehufsi[16], ehufco[16])`; so two such residuals `r1 != r2` (any two, and in particular
`40000` and `-50000`) give the same writes under every code table and on every stream. -/
theorem category_16_lossy (h : jpeg_huffman_encoder) (r1 r2 : Int) (stream : List (Nat × Nat))
    (h1 : 32768 ≤ r1.natAbs) (h1b : r1.natAbs ≤ 65535)
    (h2 : 32768 ≤ r2.natAbs) (h2b : r2.natAbs ≤ 65535) :
    write_diff numbits h r1 stream = stream ++ [(h.ehufsi 16, h.ehufco 16)] ∧
    numbits.getD r1.natAbs 0 = 16 ∧
    write_diff numbits h r1 stream = write_diff numbits h r2 stream ∧
    (∃ a b : Int, a ≠ b ∧ a.natAbs ≤ 65535 ∧ b.natAbs ≤ 65535 ∧
      ∀ (g : jpeg_huffman_encoder) (s : List (Nat × Nat)),
        write_diff numbits g a s = write_diff numbits g b s) := by
  refine ⟨write_diff_escape h r1 stream h1 h1b, ?_, ?_, ?_⟩
  · rw [numbits_getD _ h1b]; exact size_eq_16 _ h1 h1b
  · rw [write_diff_escape h r1 stream h1 h1b, write_diff_escape h r2 stream h2 h2b]
  · refine ⟨40000, -50000, by decide, by decide, by decide, ?_⟩
    intro g s
    rw [write_diff_escape g 40000 s (by decide) (by decide),
      write_diff_escape g (-50000) s (by decide) (by decide)]

/-- Witness of C12 at the residuals `40000` and `-50000`. -/
theorem category_16_lossy_witness :
    (32768 ≤ (40000 : Int).natAbs ∧ (40000 : Int).natAbs ≤ 65535 ∧
      32768 ≤ (-50000 : Int).natAbs ∧ (-50000 : Int).natAbs ≤ 65535) ∧
    (40000 : Int) ≠ -50000 ∧
    write_diff numbits encoder_example 40000 [] = [(216, 116)] ∧
    write_diff numbits encoder_example 40000 [] = write_diff numbits encoder_example (-50000) [] :=
  ⟨by decide, by decide,
    (category_16_lossy encoder_example 40000 (-50000) [] (by decide) (by decide) (by decide)
      (by decide)).1,
    (category_16_lossy encoder_example 40000 (-50000) [] (by decide) (by decide) (by decide)
      (by decide)).2.2.1⟩

/-! ## The buffers on entry do not matter -/

theorem merge_cells_indep (data : Mem) (enc_cols out_cols row_width rowptr : Nat)
    (buf other : Mem) (hec : 1 ≤ enc_cols) (hle : enc_cols ≤ out_cols) :
    (merge_loop data enc_cols out_cols 2 row_width 0 rowptr 0 buf).1 =
      (merge_loop data enc_cols out_cols 2 row_width 0 rowptr 0 other).1 ∧
    ∀ j, j < 4 * out_cols →
      (merge_loop data enc_cols out_cols 2 row_width 0 rowptr 0 buf).2 j =
        (merge_loop data enc_cols out_cols 2 row_width 0 rowptr 0 other).2 j := by
  obtain ⟨r1, c1⟩ := merge_loop_spec data enc_cols out_cols row_width rowptr buf hle (Or.inl hec)
  obtain ⟨r2, c2⟩ := merge_loop_spec data enc_cols out_cols row_width rowptr other hle
    (Or.inl hec)
  refine ⟨by rw [r1, r2], ?_⟩
  intro j hj
  rw [c1 j, c2 j]
  simp only [hj, if_true]

theorem seeded_cells (vrow0 : Mem) (s : Nat) :
    store (store vrow0 1 s) 0 s 0 = s ∧ store (store vrow0 1 s) 0 s 1 = s := by
  simp [store]

theorem rows_residuals_indep (data : Mem)
    (enc_cols out_cols bit_depth row_width table1 : Nat)
    (hec : 1 ≤ enc_cols) (hle : enc_cols ≤ out_cols) :
    ∀ (n row rowptr : Nat) (v0 v1 w0 w1 : Mem), (row = 0 ∨ (v0 0 = w0 0 ∧ v0 1 = w0 1)) →
      rows_residuals data enc_cols out_cols 2 bit_depth row_width table1 n row rowptr v0 v1 =
        rows_residuals data enc_cols out_cols 2 bit_depth row_width table1 n row rowptr w0 w1 := by
  intro n
  induction n with
  | zero => intro row rowptr v0 v1 w0 w1 _; simp [rows_residuals]
  | succ n ih =>
    intro row rowptr v0 v1 w0 w1 h
    obtain ⟨hr, hc⟩ := merge_cells_indep data enc_cols out_cols row_width rowptr v1 w1 hec hle
    rw [rows_residuals, rows_residuals, hr]
    congr 1
    · apply row_residuals_congr
      · by_cases h0 : row = 0
        · simp only [h0, if_true]
          rw [(seeded_cells v0 _).1, (seeded_cells w0 _).1]
        · simp only [h0, if_false]
          rcases h with h | h
          · exact absurd h h0
          · exact h.1
      · by_cases h0 : row = 0
        · simp only [h0, if_true]
          rw [(seeded_cells v0 _).2, (seeded_cells w0 _).2]
        · simp only [h0, if_false]
          rcases h with h | h
          · exact absurd h h0
          · exact h.2
      · intro j hj
        exact hc j (by omega)
    · apply ih
      right
      exact ⟨hc 0 (by omega), hc 1 (by omega)⟩

theorem process_image_indep {σ : Type} (fn : Int → Nat → σ → σ) (data : Mem)
    (enc_rows out_rows enc_cols out_cols bit_depth row_width : Nat) (multi_table : Int)
    (v0 v1 w0 w1 : Mem) (s : σ) (hec : 1 ≤ enc_cols) (hle : enc_cols ≤ out_cols) :
    process_image fn data enc_rows out_rows enc_cols out_cols 2 bit_depth row_width
        multi_table v0 v1 s =
      process_image fn data enc_rows out_rows enc_cols out_cols 2 bit_depth row_width
        multi_table w0 w1 s := by
  rw [process_image_eq, process_image_eq,
    rows_residuals_indep data enc_cols out_cols bit_depth row_width (table1_of multi_table)
      hec hle _ 0 0 v0 v1 w0 w1 (Or.inl rfl)]

/-- C15. For two channels and `1 <= enc_cols <= out_cols`, two runs of `process_image` that
differ only in what the two row buffers hold on entry dispatch the same sequence of
(residual, slot) pairs, hence leave every visitor in the same state: the histograms of pass 1
and the writes of pass 2 are the same. `process_row` reads only the first two cells of the
previous row. -/
theorem buffers_do_not_matter {σ : Type} (fn : Int → Nat → σ → σ) (data : Mem)
    (enc_rows out_rows enc_cols out_cols bit_depth row_width : Nat) (multi_table : Int)
    (huffman : Nat → jpeg_huffman_encoder) (v0 v1 w0 w1 : Mem) (s : σ)
    (hec : 1 ≤ enc_cols) (hle : enc_cols ≤ out_cols) (_hrows : 1 ≤ enc_rows) :
    dispatched data enc_rows out_rows enc_cols out_cols 2 bit_depth row_width multi_table v0 v1 =
      dispatched data enc_rows out_rows enc_cols out_cols 2 bit_depth row_width multi_table
        w0 w1 ∧
    process_image fn data enc_rows out_rows enc_cols out_cols 2 bit_depth row_width
        multi_table v0 v1 s =
      process_image fn data enc_rows out_rows enc_cols out_cols 2 bit_depth row_width
        multi_table w0 w1 s ∧
    pass1 data enc_rows out_rows enc_cols out_cols 2 bit_depth row_width v0 v1 =
      pass1 data enc_rows out_rows enc_cols out_cols 2 bit_depth row_width w0 w1 ∧
    process_image (write_visitor numbits huffman) data enc_rows out_rows enc_cols out_cols 2
        bit_depth row_width multi_table v0 v1 [] =
      process_image (write_visitor numbits huffman) data enc_rows out_rows enc_cols out_cols 2
        bit_depth row_width multi_table w0 w1 [] ∧
    (∀ (prev other cur : Mem) (cols table1 : Nat), prev 0 = other 0 → prev 1 = other 1 →
      process_row fn prev cur cols table1 s = process_row fn other cur cols table1 s) := by
  refine ⟨process_image_indep _ _ _ _ _ _ _ _ _ _ _ _ _ _ hec hle,
    process_image_indep _ _ _ _ _ _ _ _ _ _ _ _ _ _ hec hle,
    process_image_indep _ _ _ _ _ _ _ _ _ _ _ _ _ _ hec hle,
    process_image_indep _ _ _ _ _ _ _ _ _ _ _ _ _ _ hec hle, ?_⟩
  intro prev other cur cols table1 h0 h1
  rw [process_row_eq, process_row_eq,
    row_residuals_congr prev other cur cur cols table1 h0 h1 (fun _ _ => rfl)]

/-- Witness of C15: `predictor_example` with row buffers holding 0 or 999 on entry. -/
theorem buffers_do_not_matter_witness :
    (1 ≤ 1 ∧ 1 ≤ 1 ∧ 1 ≤ 4) ∧
    dispatched predictor_example 4 4 1 1 2 8 2 1 (fun _ => 0) (fun _ => 0) =
      dispatched predictor_example 4 4 1 1 2 8 2 1 (fun _ => 999) (fun _ => 999) :=
  ⟨by decide,
    (buffers_do_not_matter record predictor_example 4 4 1 1 8 2 1 (fun _ => encoder_example)
      (fun _ => 0) (fun _ => 0) (fun _ => 999) (fun _ => 999) [] (by decide) (by decide)
      (by decide)).1⟩

/-! ## Magnitude of the residuals -/

/-- At a padded position of the merged row the sample equals the sample two places to its
left (two channels, `1 <= enc_cols`). -/
theorem merge_padded_cell (data : Mem) (enc_cols out_cols row_width rowptr : Nat) (buf : Mem)
    (hec : 1 ≤ enc_cols) (hle : enc_cols ≤ out_cols) (j : Nat)
    (hj : (2 * enc_cols ≤ j ∧ j < 2 * out_cols) ∨
      (2 * out_cols + 2 * enc_cols ≤ j ∧ j < 4 * out_cols)) :
    (merge_loop data enc_cols out_cols 2 row_width 0 rowptr 0 buf).2 j =
      (merge_loop data enc_cols out_cols 2 row_width 0 rowptr 0 buf).2 (j - 2) := by
  obtain ⟨_, c⟩ := merge_loop_spec data enc_cols out_cols row_width rowptr buf hle (Or.inl hec)
  rw [c j, c (j - 2)]
  rcases hj with ⟨h1, h2⟩ | ⟨h1, h2⟩
  · have a : ¬ j < 2 * enc_cols := by omega
    simp only [a, h2, if_true, if_false]
    by_cases hb : j - 2 < 2 * enc_cols
    · simp only [hb, if_true]
      congr 1; omega
    · have hc : j - 2 < 2 * out_cols := by omega
      simp only [hb, hc, if_true, if_false]
      congr 1; omega
  · have a : ¬ j < 2 * enc_cols := by omega
    have b : ¬ j < 2 * out_cols := by omega
    have d : ¬ j < 2 * out_cols + 2 * enc_cols := by omega
    have a2 : ¬ j - 2 < 2 * enc_cols := by omega
    have b2 : ¬ j - 2 < 2 * out_cols := by omega
    simp only [a, b, d, h2, a2, b2, if_true, if_false]
    by_cases hb : j - 2 < 2 * out_cols + 2 * enc_cols
    · simp only [hb, if_true]
      congr 1; omega
    · have hc : j - 2 < 4 * out_cols := by omega
      simp only [hb, hc, if_true, if_false]
      congr 1; omega

theorem rows_residuals_padded (data : Mem)
    (enc_cols out_cols bit_depth row_width table1 : Nat)
    (hec : 1 ≤ enc_cols) (hle : enc_cols ≤ out_cols) (j : Nat)
    (hj : (2 * enc_cols ≤ j ∧ j < 2 * out_cols) ∨
      (2 * out_cols + 2 * enc_cols ≤ j ∧ j < 4 * out_cols)) :
    ∀ (n i row rowptr : Nat) (v0 v1 : Mem), i < n →
      (rows_residuals data enc_cols out_cols 2 bit_depth row_width table1
          n row rowptr v0 v1)[i * (4 * out_cols) + j]? =
        some ((0 : Int), if j % 2 = 0 then 0 else table1) := by
  have hj4 : j < 4 * out_cols := by omega
  have hj2 : 2 ≤ j := by omega
  intro n
  induction n with
  | zero => intro i row rowptr v0 v1 hi; omega
  | succ n ih =>
    intro i row rowptr v0 v1 hi
    rw [rows_residuals]
    rcases i with _ | i
    · have l0 : 0 * (4 * out_cols) + j < (row_residuals
          (if row = 0 then store (store v0 1 (seed bit_depth)) 0 (seed bit_depth) else v0)
          (merge_loop data enc_cols out_cols 2 row_width 0 rowptr 0 v1).2
          (out_cols * 2) table1).length := by
        rw [row_residuals_length]; omega
      rw [List.getElem?_append_left l0, Nat.zero_mul, Nat.zero_add,
        row_residuals_getElem? _ _ _ _ _ (by omega)]
      have h2 : ¬ j < 2 := by omega
      simp only [h2, if_false]
      rw [merge_padded_cell data enc_cols out_cols row_width rowptr v1 hec hle j hj]
      simp
    · have l0 : (row_residuals
          (if row = 0 then store (store v0 1 (seed bit_depth)) 0 (seed bit_depth) else v0)
          (merge_loop data enc_cols out_cols 2 row_width 0 rowptr 0 v1).2
          (out_cols * 2) table1).length ≤ (i + 1) * (4 * out_cols) + j := by
        rw [row_residuals_length]
        have : (i + 1) * (4 * out_cols) = i * (4 * out_cols) + 2 * (out_cols * 2) := by ring
        omega
      rw [List.getElem?_append_right l0, row_residuals_length]
      have e0 : (i + 1) * (4 * out_cols) + j - 2 * (out_cols * 2) = i * (4 * out_cols) + j := by
        have : (i + 1) * (4 * out_cols) = i * (4 * out_cols) + 2 * (out_cols * 2) := by ring
        omega
      rw [e0]
      exact ih i _ _ _ _ (by omega)

/-- C20. For two channels and `1 <= enc_cols < out_cols`, in every real row pair `i` the
residual dispatched at each padded position `j` of the merged row (`2*enc_cols <= j <
2*out_cols`, or `2*out_cols + 2*enc_cols <= j < 4*out_cols`) is exactly 0, whatever the
raster. -/
theorem padded_columns_zero (data : Mem)
    (enc_rows out_rows enc_cols out_cols bit_depth row_width : Nat) (multi_table : Int)
    (v0 v1 : Mem) (i j : Nat) (hec : 1 ≤ enc_cols) (hlt : enc_cols < out_cols)
    (hi : 2 * i < enc_rows)
    (hj : (2 * enc_cols ≤ j ∧ j < 2 * out_cols) ∨
      (2 * out_cols + 2 * enc_cols ≤ j ∧ j < 4 * out_cols)) :
    (dispatched data enc_rows out_rows enc_cols out_cols 2 bit_depth row_width multi_table
        v0 v1)[i * (4 * out_cols) + j]? =
      some ((0 : Int), if j % 2 = 0 then 0 else table1_of multi_table) := by
  have hn : i < (enc_rows + 1) / 2 := by omega
  have hlen := rows_residuals_length data enc_cols out_cols 2 bit_depth row_width
    (table1_of multi_table) ((enc_rows + 1) / 2) 0 0 v0 v1
  have hblock : (i + 1) * (4 * out_cols) ≤ (enc_rows + 1) / 2 * (4 * out_cols) :=
    Nat.mul_le_mul_right _ hn
  have hexp : (i + 1) * (4 * out_cols) = i * (4 * out_cols) + 4 * out_cols := by ring
  have l0 : i * (4 * out_cols) + j < (rows_residuals data enc_cols out_cols 2 bit_depth
      row_width (table1_of multi_table) ((enc_rows + 1) / 2) 0 0 v0 v1).length := by
    rw [hlen]; omega
  rw [dispatched_eq, List.getElem?_append_left l0]
  exact rows_residuals_padded data enc_cols out_cols bit_depth row_width
    (table1_of multi_table) hec (le_of_lt hlt) j hj _ i 0 0 v0 v1 hn

/-- Witness of C20: in `merge_example` with one valid column pair padded to three, position 2
of the first row pair. -/
theorem padded_columns_zero_witness :
    (1 ≤ 1 ∧ 1 < 3 ∧ 2 * 0 < 2 ∧
      ((2 * 1 ≤ 2 ∧ 2 < 2 * 3) ∨ (2 * 3 + 2 * 1 ≤ 2 ∧ 2 < 4 * 3))) ∧
    (dispatched merge_example 2 2 1 3 2 8 4 1 (fun _ => 0) (fun _ => 0))[0 * (4 * 3) + 2]? =
      some ((0 : Int), 0) :=
  ⟨by decide,
    padded_columns_zero merge_example 2 2 1 3 8 4 1 (fun _ => 0) (fun _ => 0) 0 2
      (by decide) (by decide) (by decide) (by decide)⟩

/-! ## Routing -/

theorem slots_add (a b table1 : Nat) (ha : a % 2 = 0) :
    (List.range (a + b)).map (fun i => if i % 2 = 0 then 0 else table1) =
      (List.range a).map (fun i => if i % 2 = 0 then 0 else table1) ++
        (List.range b).map (fun i => if i % 2 = 0 then 0 else table1) := by
  rw [List.range_add, List.map_append, List.map_map]
  congr 1
  apply List.map_congr_left
  intro i _
  have e : (a + i) % 2 = i % 2 := by omega
  simp [e]

theorem row_residuals_slots (row0 row1 : Mem) (cols table1 : Nat) :
    (row_residuals row0 row1 cols table1).map Prod.snd =
      (List.range (2 * cols)).map (fun i => if i % 2 = 0 then 0 else table1) := by
  unfold row_residuals
  rw [List.map_map]
  rfl

theorem filler_residuals_slots (n table1 : Nat) :
    (filler_residuals n table1).map Prod.snd =
      (List.range n).map (fun i => if i % 2 = 0 then 0 else table1) := by
  unfold filler_residuals
  rw [List.map_map]
  rfl

theorem rows_residuals_slots (data : Mem)
    (enc_cols out_cols channels bit_depth row_width table1 : Nat) :
    ∀ (n row rowptr : Nat) (v0 v1 : Mem),
      (rows_residuals data enc_cols out_cols channels bit_depth row_width table1
        n row rowptr v0 v1).map Prod.snd =
        (List.range (n * (4 * out_cols))).map (fun i => if i % 2 = 0 then 0 else table1) := by
  intro n
  induction n with
  | zero => intro row rowptr v0 v1; simp [rows_residuals]
  | succ n ih =>
    intro row rowptr v0 v1
    rw [rows_residuals, List.map_append, ih, row_residuals_slots]
    have e : (n + 1) * (4 * out_cols) = 2 * (out_cols * 2) + n * (4 * out_cols) := by ring
    rw [e, slots_add _ _ _ (by omega)]

/-- The routing indices of the residuals `process_image` dispatches alternate between `0`
and `table1`, starting with `0`. -/
theorem dispatched_slots (data : Mem)
    (enc_rows out_rows enc_cols out_cols channels bit_depth row_width : Nat)
    (multi_table : Int) (v0 v1 : Mem) :
    (dispatched data enc_rows out_rows enc_cols out_cols channels bit_depth row_width
        multi_table v0 v1).map Prod.snd =
      (List.range (((enc_rows + 1) / 2 + (out_rows - 2 * ((enc_rows + 1) / 2) + 1) / 2)
        * (4 * out_cols))).map (fun i => if i % 2 = 0 then 0 else table1_of multi_table) := by
  rw [dispatched_eq, List.map_append, rows_residuals_slots, filler_residuals_slots,
    Nat.add_mul, slots_add _ _ _ (by
      have : (enc_rows + 1) / 2 * (4 * out_cols) = 2 * ((enc_rows + 1) / 2 * (2 * out_cols)) := by
        ring
      omega)]

theorem count_alternating (m : Nat) :
    ((List.range (2 * m)).map (fun i => if i % 2 = 0 then 0 else 1)).count 0 = m ∧
    ((List.range (2 * m)).map (fun i => if i % 2 = 0 then 0 else 1)).count 1 = m := by
  induction m with
  | zero => simp
  | succ m ih =>
    rw [range_two_step]
    have e : ∀ i, (i + 2) % 2 = i % 2 := by intro i; omega
    simp only [e]
    obtain ⟨a, b⟩ := ih
    constructor
    · simp only [List.count_cons]
      rw [a]; simp
    · simp only [List.count_cons]
      rw [b]; simp

/-- C18. For two channels, even `enc_rows <= out_rows` (`out_rows` even) and
`1 <= enc_cols <= out_cols`: `table1` is 0 for `multi_table = 0` and 1 otherwise; the
residuals go alternately to `data[0]` and `data[table1]`, `data[0]` first; there are
`2 * out_rows * out_cols = (out_rows / 2) * (out_cols * 2) * 2` of them, whatever `enc_rows`
and `enc_cols` are; for `multi_table != 0` each of the two slots gets `out_rows * out_cols`
of them, and for `multi_table = 0` every one goes to `data[0]`. -/
theorem routing_and_count (data : Mem)
    (enc_rows out_rows enc_cols out_cols bit_depth row_width : Nat) (multi_table : Int)
    (v0 v1 : Mem) (_he : enc_rows % 2 = 0) (ho : out_rows % 2 = 0)
    (hrows : enc_rows ≤ out_rows) (_hec : 1 ≤ enc_cols) (_hle : enc_cols ≤ out_cols) :
    table1_of multi_table = (if multi_table = 0 then 0 else 1) ∧
    (dispatched data enc_rows out_rows enc_cols out_cols 2 bit_depth row_width multi_table
        v0 v1).map Prod.snd =
      (List.range (2 * out_rows * out_cols)).map
        (fun i => if i % 2 = 0 then 0 else table1_of multi_table) ∧
    (dispatched data enc_rows out_rows enc_cols out_cols 2 bit_depth row_width multi_table
        v0 v1).length = 2 * out_rows * out_cols ∧
    2 * out_rows * out_cols = out_rows / 2 * (out_cols * 2) * 2 ∧
    (multi_table ≠ 0 →
      ((dispatched data enc_rows out_rows enc_cols out_cols 2 bit_depth row_width multi_table
        v0 v1).map Prod.snd).count 0 = out_rows * out_cols ∧
      ((dispatched data enc_rows out_rows enc_cols out_cols 2 bit_depth row_width multi_table
        v0 v1).map Prod.snd).count 1 = out_rows * out_cols) ∧
    (multi_table = 0 →
      ∀ e ∈ dispatched data enc_rows out_rows enc_cols out_cols 2 bit_depth row_width
        multi_table v0 v1, e.2 = 0) := by
  have hcount : ((enc_rows + 1) / 2 + (out_rows - 2 * ((enc_rows + 1) / 2) + 1) / 2)
      * (4 * out_cols) = 2 * out_rows * out_cols := by
    have h : (enc_rows + 1) / 2 + (out_rows - 2 * ((enc_rows + 1) / 2) + 1) / 2
        = out_rows / 2 := by omega
    rw [h]
    obtain ⟨k, hk⟩ : ∃ k, out_rows = 2 * k := ⟨out_rows / 2, by omega⟩
    subst hk
    have : 2 * k / 2 = k := by omega
    rw [this]; ring
  have hslots := dispatched_slots data enc_rows out_rows enc_cols out_cols 2 bit_depth
    row_width multi_table v0 v1
  rw [hcount] at hslots
  refine ⟨?_, hslots, dispatched_length _ _ _ _ _ _ _ _ _ _ _ ho hrows, ?_, ?_, ?_⟩
  · unfold table1_of
    by_cases h : multi_table = 0 <;> simp [h]
  · obtain ⟨k, hk⟩ : ∃ k, out_rows = 2 * k := ⟨out_rows / 2, by omega⟩
    subst hk
    have : 2 * k / 2 = k := by omega
    rw [this]; ring
  · intro hm
    have ht : table1_of multi_table = 1 := by simp [table1_of, hm]
    have e : 2 * out_rows * out_cols = 2 * (out_rows * out_cols) := by ring
    rw [hslots, ht, e]
    exact count_alternating _
  · intro hm e he
    have ht : table1_of multi_table = 0 := by simp [table1_of, hm]
    rcases dispatched_slot _ _ _ _ _ _ _ _ _ _ _ e he with h | h
    · exact h
    · rw [h, ht]

/-- Witness of C18: `predictor_example` with `multi_table = 1` routes 4 residuals to each
slot. -/
theorem routing_and_count_witness :
    (4 % 2 = 0 ∧ 4 % 2 = 0 ∧ 4 ≤ 4 ∧ 1 ≤ 1 ∧ 1 ≤ 1 ∧ (1 : Int) ≠ 0) ∧
    ((dispatched predictor_example 4 4 1 1 2 8 2 1 (fun _ => 0) (fun _ => 0)).map
      Prod.snd).count 0 = 4 * 1 ∧
    ((dispatched predictor_example 4 4 1 1 2 8 2 1 (fun _ => 0) (fun _ => 0)).map
      Prod.snd).count 1 = 4 * 1 :=
  ⟨by decide,
    (routing_and_count predictor_example 4 4 1 1 8 2 1 (fun _ => 0) (fun _ => 0)
      (by decide) (by decide) (by decide) (by decide) (by decide)).2.2.2.2.1 (by decide)⟩

/-! ## The driver -/

/-- Whatever the 65536-entry table holds on entry, `init_numbits` leaves the same table. -/
theorem init_numbits_eq (tbl : Array Nat) (h : tbl.size = 65536) :
    init_numbits tbl = some numbits := by
  obtain ⟨t, ht, hts, htv⟩ := init_numbits_spec tbl h
  obtain ⟨u, hu, hus, huv⟩ := init_numbits_spec (Array.mkArray 65536 0) (by simp)
  have hn : numbits = u := by unfold numbits; rw [hu]; rfl
  rw [ht, hn]
  congr 1
  apply Array.ext
  · rw [hts, hus]
  · intro i h1 h2
    have a := htv i (by omega)
    have b := huv i (by omega)
    rw [Array.getElem?_eq_getElem h1] at a
    rw [Array.getElem?_eq_getElem h2] at b
    exact Option.some.inj (a.trans b.symm)

theorem write_diff_append (tbl : Array Nat) (h : jpeg_huffman_encoder) (d : Int)
    (s : List (Nat × Nat)) :
    write_diff tbl h d s = s ++ write_diff tbl h d [] := by
  unfold write_diff jpeg_write_bits
  simp only []
  split_ifs <;> simp

theorem encode_fold (tbl : Array Nat) (huffman : Nat → jpeg_huffman_encoder)
    (es : List (Int × Nat)) :
    ∀ (calls : List Event) (w : List (Nat × Nat)),
      List.foldl (fun s e => encode_visitor tbl huffman e.1 e.2 s)
          (calls ++ w.map (fun x => Event.write_bits x.1 x.2)) es =
        calls ++ (List.foldl (fun s e => write_visitor tbl huffman e.1 e.2 s) w es).map
          (fun x => Event.write_bits x.1 x.2) := by
  induction es with
  | nil => intro calls w; rfl
  | cons e es ih =>
    intro calls w
    rw [List.foldl_cons, List.foldl_cons]
    have : encode_visitor tbl huffman e.1 e.2
        (calls ++ w.map (fun x => Event.write_bits x.1 x.2)) =
        calls ++ (write_visitor tbl huffman e.1 e.2 w).map
          (fun x => Event.write_bits x.1 x.2) := by
      unfold encode_visitor write_visitor
      rw [write_diff_append tbl (huffman e.2) e.1 w, List.map_append, List.append_assoc]
    rw [this, ih]

/-- Pass 2 as run inside `jpeg_ls_encode`: the calls recorded so far, then the writes of
`write_diff` folded over the dispatched residuals. -/
theorem encode_pass_eq (tbl : Array Nat) (huffman : Nat → jpeg_huffman_encoder) (data : Mem)
    (enc_rows out_rows enc_cols out_cols channels bit_depth row_width : Nat)
    (multi_table : Int) (v0 v1 : Mem) (calls : List Event) :
    process_image (encode_visitor tbl huffman) data enc_rows out_rows enc_cols out_cols
        channels bit_depth row_width multi_table v0 v1 calls =
      calls ++ (List.foldl (fun s e => write_visitor tbl huffman e.1 e.2 s) []
        (dispatched data enc_rows out_rows enc_cols out_cols channels bit_depth row_width
          multi_table v0 v1)).map (fun x => Event.write_bits x.1 x.2) := by
  rw [process_image_eq, ← dispatched_eq]
  have h := encode_fold tbl huffman (dispatched data enc_rows out_rows enc_cols out_cols
    channels bit_depth row_width multi_table v0 v1) calls []
  simpa using h

theorem pass2_eq (tables : Nat → jpeg_huffman_encoder) (data : Mem)
    (enc_rows out_rows enc_cols out_cols channels bit_depth row_width : Nat) (v0 v1 : Mem) :
    pass2 tables data enc_rows out_rows enc_cols out_cols channels bit_depth row_width v0 v1 =
      List.foldl (fun s e => write_diff numbits (tables e.2) e.1 s) []
        (dispatched data enc_rows out_rows enc_cols out_cols channels bit_depth row_width 1
          v0 v1) := by
  unfold pass2
  rw [process_image_eq, ← dispatched_eq]
  rfl

/-- The run of `jpeg_ls_encode` for two channels, spelled out. -/
theorem jpeg_ls_encode_eq (generate : Mem → jpeg_huffman_encoder)
    (huffman : Nat → jpeg_huffman_encoder) (tbl : Array Nat) (calls : List Event) (data : Mem)
    (enc_rows out_rows enc_cols out_cols bit_depth row_width : Nat)
    (va0 va1 vb0 vb1 : Mem) (h : tbl.size = 65536) :
    jpeg_ls_encode generate huffman tbl calls data enc_rows out_rows enc_cols out_cols 2
        bit_depth row_width va0 va1 vb0 vb1 =
      (numbits,
        calls ++
          [Event.huffman_generate 0
              (pass1 data enc_rows out_rows enc_cols out_cols 2 bit_depth row_width va0 va1 0),
            Event.huffman_generate 1
              (pass1 data enc_rows out_rows enc_cols out_cols 2 bit_depth row_width va0 va1 1),
            Event.write_start (out_rows / 2) (out_cols * 2) 2 bit_depth
              (generated_tables generate huffman
                (pass1 data enc_rows out_rows enc_cols out_cols 2 bit_depth row_width va0 va1))
              1 1] ++
          (pass2
            (generated_tables generate huffman
              (pass1 data enc_rows out_rows enc_cols out_cols 2 bit_depth row_width va0 va1))
            data enc_rows out_rows enc_cols out_cols 2 bit_depth row_width vb0 vb1).map
              (fun x => Event.write_bits x.1 x.2) ++
          [Event.write_flush, Event.write_end],
        some 1) := by
  unfold jpeg_ls_encode
  simp only [ne_eq, not_true_eq_false, if_false, init_numbits_eq tbl h, one_ne_zero,
    not_false_eq_true, if_true, encode_pass_eq]
  rw [pass2_eq]
  unfold pass1 generated_tables write_visitor
  simp

theorem filterMap_start_bits (w : List (Nat × Nat)) :
    (w.map (fun x => Event.write_bits x.1 x.2)).filterMap start_last = [] := by
  induction w with
  | nil => rfl
  | cons x w ih => simp [List.filterMap_cons, start_last, ih]

/-- C14 (refuted as stated). On `predictor_example` the single `jpeg_write_start` call of
`jpeg_ls_encode` has last argument 1, not 2. -/
theorem header_last_argument_refuted :
    (jpeg_ls_encode generate_example (fun _ => encoder_example) (Array.mkArray 65536 0) []
        predictor_example 4 4 1 1 2 8 2 (fun _ => 0) (fun _ => 0) (fun _ => 0)
        (fun _ => 0)).2.1.filterMap start_last = [1] ∧
    (jpeg_ls_encode generate_example (fun _ => encoder_example) (Array.mkArray 65536 0) []
        predictor_example 4 4 1 1 2 8 2 (fun _ => 0) (fun _ => 0) (fun _ => 0)
        (fun _ => 0)).2.1.filterMap start_last ≠ [2] := by
  have e := jpeg_ls_encode_eq generate_example (fun _ => encoder_example)
    (Array.mkArray 65536 0) [] predictor_example 4 4 1 1 8 2 (fun _ => 0) (fun _ => 0)
    (fun _ => 0) (fun _ => 0) (by simp)
  have h1 : (jpeg_ls_encode generate_example (fun _ => encoder_example)
      (Array.mkArray 65536 0) [] predictor_example 4 4 1 1 2 8 2 (fun _ => 0) (fun _ => 0)
      (fun _ => 0) (fun _ => 0)).2.1.filterMap start_last = [1] := by
    rw [e]
    simp only [List.nil_append, List.filterMap_append, filterMap_start_bits,
      List.filterMap_cons, List.filterMap_nil, start_last, List.append_nil]
  exact ⟨h1, by rw [h1]; decide⟩

/-- C14 (amended). For two channels, `jpeg_ls_encode` makes, after the calls recorded on
entry: the two table-builder calls on the histograms of pass 1, then exactly one
`jpeg_write_start` call with row count `out_rows / 2`, column count `out_cols * 2`, the
channel count, the bit depth, the two generated tables, `multi_table = 1` and last argument
1, then the bit writes of pass 2, then the flush and the footer. -/
theorem header_call (generate : Mem → jpeg_huffman_encoder)
    (huffman : Nat → jpeg_huffman_encoder) (tbl : Array Nat) (calls : List Event) (data : Mem)
    (enc_rows out_rows enc_cols out_cols bit_depth row_width : Nat)
    (va0 va1 vb0 vb1 : Mem) (h : tbl.size = 65536) :
    generated_tables generate huffman
        (pass1 data enc_rows out_rows enc_cols out_cols 2 bit_depth row_width va0 va1) 0 =
      generate (pass1 data enc_rows out_rows enc_cols out_cols 2 bit_depth row_width va0 va1 0) ∧
    generated_tables generate huffman
        (pass1 data enc_rows out_rows enc_cols out_cols 2 bit_depth row_width va0 va1) 1 =
      generate (pass1 data enc_rows out_rows enc_cols out_cols 2 bit_depth row_width va0 va1 1) ∧
    (jpeg_ls_encode generate huffman tbl calls data enc_rows out_rows enc_cols out_cols 2
      bit_depth row_width va0 va1 vb0 vb1).2.1 =
      calls ++
        [Event.huffman_generate 0
            (pass1 data enc_rows out_rows enc_cols out_cols 2 bit_depth row_width va0 va1 0),
          Event.huffman_generate 1
            (pass1 data enc_rows out_rows enc_cols out_cols 2 bit_depth row_width va0 va1 1),
          Event.write_start (out_rows / 2) (out_cols * 2) 2 bit_depth
            (generated_tables generate huffman
              (pass1 data enc_rows out_rows enc_cols out_cols 2 bit_depth row_width va0 va1))
            1 1] ++
        (pass2
          (generated_tables generate huffman
            (pass1 data enc_rows out_rows enc_cols out_cols 2 bit_depth row_width va0 va1))
          data enc_rows out_rows enc_cols out_cols 2 bit_depth row_width vb0 vb1).map
            (fun x => Event.write_bits x.1 x.2) ++
        [Event.write_flush, Event.write_end] ∧
    (jpeg_ls_encode generate huffman tbl calls data enc_rows out_rows enc_cols out_cols 2
      bit_depth row_width va0 va1 vb0 vb1).2.1.filterMap start_last =
      calls.filterMap start_last ++ [1] := by
  have e := jpeg_ls_encode_eq generate huffman tbl calls data enc_rows out_rows enc_cols
    out_cols bit_depth row_width va0 va1 vb0 vb1 h
  refine ⟨by simp [generated_tables], by simp [generated_tables], by rw [e], ?_⟩
  rw [e]
  simp only [List.filterMap_append, filterMap_start_bits, List.filterMap_cons,
    List.filterMap_nil, start_last, List.append_nil]

/-- Witness of C14 (amended) on `predictor_example`: one header call, last argument 1. -/
theorem header_call_witness :
    (Array.mkArray 65536 0).size = 65536 ∧
    (jpeg_ls_encode generate_example (fun _ => encoder_example) (Array.mkArray 65536 0) []
      predictor_example 4 4 1 1 2 8 2 (fun _ => 0) (fun _ => 0) (fun _ => 0)
      (fun _ => 0)).2.1.filterMap start_last =
      ([] : List Event).filterMap start_last ++ [1] :=
  ⟨by simp,
    (header_call generate_example (fun _ => encoder_example) (Array.mkArray 65536 0) []
      predictor_example 4 4 1 1 8 2 (fun _ => 0) (fun _ => 0) (fun _ => 0) (fun _ => 0)
      (by simp)).2.2.2⟩

/-! ## The two passes agree -/

theorem count_visitor_cell (d : Int) (k : Nat) (freq : Nat → Mem) (t c : Nat) :
    count_visitor numbits d k freq t c =
      freq t c + (if t = k ∧ numbits.getD d.natAbs 0 = c then 1 else 0) := by
  unfold count_visitor
  by_cases ht : t = k
  · subst ht
    rw [if_pos rfl, count_diff_eq]
    unfold store
    by_cases hc : c = numbits.getD d.natAbs 0
    · have hc2 : t = t ∧ numbits.getD d.natAbs 0 = c := ⟨rfl, hc.symm⟩
      rw [if_pos hc, if_pos hc2, hc]
    · have hc2 : ¬ (t = t ∧ numbits.getD d.natAbs 0 = c) := fun h => hc h.2.symm
      rw [if_neg hc, if_neg hc2, Nat.add_zero]
  · have h2 : ¬ (t = k ∧ numbits.getD d.natAbs 0 = c) := fun h => ht h.1
    rw [if_neg ht, if_neg h2, Nat.add_zero]

theorem foldl_counts (es : List (Int × Nat)) :
    ∀ (freq : Nat → Mem) (t c : Nat),
      List.foldl (fun s e => count_visitor numbits e.1 e.2 s) freq es t c =
        freq t c + es.countP (fun x => decide (x.2 = t ∧ numbits.getD x.1.natAbs 0 = c)) := by
  induction es with
  | nil => intro freq t c; simp
  | cons e es ih =>
    intro freq t c
    rw [List.foldl_cons, ih, count_visitor_cell, List.countP_cons]
    by_cases h : t = e.2 ∧ numbits.getD e.1.natAbs 0 = c
    · have h2 : e.2 = t ∧ numbits.getD e.1.natAbs 0 = c := ⟨h.1.symm, h.2⟩
      have hd : decide (e.2 = t ∧ numbits.getD e.1.natAbs 0 = c) = true := decide_eq_true h2
      rw [if_pos h, if_pos hd]
      omega
    · have h2 : ¬ (e.2 = t ∧ numbits.getD e.1.natAbs 0 = c) := fun x => h ⟨x.1.symm, x.2⟩
      have hd : ¬ (decide (e.2 = t ∧ numbits.getD e.1.natAbs 0 = c) = true) := by
        rw [decide_eq_true_eq]; exact h2
      rw [if_neg h, if_neg hd]
      omega

/-- After pass 1, `freq[t][c]` is the number of dispatched residuals routed to slot `t` whose
magnitude has category `c`. -/
theorem pass1_counts (data : Mem)
    (enc_rows out_rows enc_cols out_cols channels bit_depth row_width : Nat)
    (v0 v1 : Mem) (t c : Nat) :
    pass1 data enc_rows out_rows enc_cols out_cols channels bit_depth row_width v0 v1 t c =
      (dispatched data enc_rows out_rows enc_cols out_cols channels bit_depth row_width 1
        v0 v1).countP (fun x => decide (x.2 = t ∧ numbits.getD x.1.natAbs 0 = c)) := by
  unfold pass1
  rw [process_image_eq, ← dispatched_eq, foldl_counts]
  simp

/-- C19. In `jpeg_ls_encode` (two channels, `1 <= enc_cols <= out_cols`) the residuals pass 2
dispatches are those of pass 1, in the same order, although the two calls have row buffers of
their own; after pass 1 `freq[t][c]` counts the residuals routed to slot `t` with category
`c`; the bit writes of `jpeg_ls_encode` are `write_diff` folded over that sequence with the
tables built from those histograms; and for a residual `e` of pass 2, `write_diff` looks up
`ehufsi` and `ehufco` of the table of slot `e.2` at the category `c = numbits[|e.1|]`, a cell
`freq[e.2][c]` the table builder was given as not 0. -/
theorem pass_consistency (generate : Mem → jpeg_huffman_encoder)
    (huffman : Nat → jpeg_huffman_encoder) (tbl : Array Nat) (calls : List Event) (data : Mem)
    (enc_rows out_rows enc_cols out_cols bit_depth row_width : Nat)
    (va0 va1 vb0 vb1 : Mem) (t c : Nat) (e : Int × Nat) (stream : List (Nat × Nat))
    (h : tbl.size = 65536) (hec : 1 ≤ enc_cols) (hle : enc_cols ≤ out_cols)
    (he : e ∈ dispatched data enc_rows out_rows enc_cols out_cols 2 bit_depth row_width 1
      vb0 vb1) :
    dispatched data enc_rows out_rows enc_cols out_cols 2 bit_depth row_width 1 vb0 vb1 =
      dispatched data enc_rows out_rows enc_cols out_cols 2 bit_depth row_width 1 va0 va1 ∧
    pass1 data enc_rows out_rows enc_cols out_cols 2 bit_depth row_width va0 va1 t c =
      (dispatched data enc_rows out_rows enc_cols out_cols 2 bit_depth row_width 1
        va0 va1).countP (fun x => decide (x.2 = t ∧ numbits.getD x.1.natAbs 0 = c)) ∧
    pass1 data enc_rows out_rows enc_cols out_cols 2 bit_depth row_width va0 va1
      e.2 (numbits.getD e.1.natAbs 0) ≠ 0 ∧
    (jpeg_ls_encode generate huffman tbl calls data enc_rows out_rows enc_cols out_cols 2
      bit_depth row_width va0 va1 vb0 vb1).2.1 =
      calls ++
        [Event.huffman_generate 0
            (pass1 data enc_rows out_rows enc_cols out_cols 2 bit_depth row_width va0 va1 0),
          Event.huffman_generate 1
            (pass1 data enc_rows out_rows enc_cols out_cols 2 bit_depth row_width va0 va1 1),
          Event.write_start (out_rows / 2) (out_cols * 2) 2 bit_depth
            (generated_tables generate huffman
              (pass1 data enc_rows out_rows enc_cols out_cols 2 bit_depth row_width va0 va1))
            1 1] ++
        (List.foldl (fun s x => write_diff numbits
            (generated_tables generate huffman
              (pass1 data enc_rows out_rows enc_cols out_cols 2 bit_depth row_width va0 va1)
              x.2) x.1 s) []
          (dispatched data enc_rows out_rows enc_cols out_cols 2 bit_depth row_width 1
            va0 va1)).map (fun x => Event.write_bits x.1 x.2) ++
        [Event.write_flush, Event.write_end] ∧
    write_diff numbits
        (generated_tables generate huffman
          (pass1 data enc_rows out_rows enc_cols out_cols 2 bit_depth row_width va0 va1) e.2)
        e.1 stream =
      stream ++
        ((generated_tables generate huffman
            (pass1 data enc_rows out_rows enc_cols out_cols 2 bit_depth row_width va0 va1)
            e.2).ehufsi (numbits.getD e.1.natAbs 0),
          (generated_tables generate huffman
            (pass1 data enc_rows out_rows enc_cols out_cols 2 bit_depth row_width va0 va1)
            e.2).ehufco (numbits.getD e.1.natAbs 0)) ::
        (if numbits.getD e.1.natAbs 0 ≠ 16 then
          [(numbits.getD e.1.natAbs 0,
            ((if e.1 < 0 then ~~~(-e.1) else e.1) % 2 ^ (numbits.getD e.1.natAbs 0)).toNat)]
        else []) ∧
    (e.2 = 0 ∨ e.2 = 1) ∧
    generated_tables generate huffman
        (pass1 data enc_rows out_rows enc_cols out_cols 2 bit_depth row_width va0 va1) e.2 =
      generate
        (pass1 data enc_rows out_rows enc_cols out_cols 2 bit_depth row_width va0 va1 e.2) := by
  have hsame : dispatched data enc_rows out_rows enc_cols out_cols 2 bit_depth row_width 1
      vb0 vb1 =
      dispatched data enc_rows out_rows enc_cols out_cols 2 bit_depth row_width 1 va0 va1 :=
    process_image_indep _ _ _ _ _ _ _ _ _ _ _ _ _ _ hec hle
  have hslot : e.2 = 0 ∨ e.2 = 1 := by
    rcases dispatched_slot _ _ _ _ _ _ _ _ _ _ _ e he with h0 | h1
    · exact Or.inl h0
    · right; rw [h1]; rfl
  refine ⟨hsame, pass1_counts _ _ _ _ _ _ _ _ _ _ _ _, ?_, ?_,
    write_diff_eq numbits _ e.1 stream (numbits_getD_le _), hslot, ?_⟩
  · rw [pass1_counts]
    apply Nat.pos_iff_ne_zero.mp
    rw [List.countP_pos_iff]
    rw [hsame] at he
    exact ⟨e, he, by simp⟩
  · rw [jpeg_ls_encode_eq _ _ _ _ _ _ _ _ _ _ _ _ _ _ _ h, pass2_eq, hsame]
  · rcases hslot with h0 | h1
    · rw [h0]; simp [generated_tables]
    · rw [h1]; simp [generated_tables]

/-- Witness of C19 on `predictor_example`, for its first residual `-118`, of category 7: the
write is the code of category 7 of the table built from `freq[0]`, and `freq[0][7]` is not
0. -/
theorem pass_consistency_witness :
    ((Array.mkArray 65536 0).size = 65536 ∧ 1 ≤ 1 ∧ 1 ≤ 1) ∧
    dispatched predictor_example 4 4 1 1 2 8 2 1 (fun _ => 999) (fun _ => 999) =
      dispatched predictor_example 4 4 1 1 2 8 2 1 (fun _ => 0) (fun _ => 0) ∧
    pass1 predictor_example 4 4 1 1 2 8 2 (fun _ => 0) (fun _ => 0)
      ((-118 : Int), 0).2 (numbits.getD ((-118 : Int), 0).1.natAbs 0) ≠ 0 ∧
    numbits.getD ((-118 : Int), 0).1.natAbs 0 = 7 ∧
    write_diff numbits
        (generated_tables generate_example (fun _ => encoder_example)
          (pass1 predictor_example 4 4 1 1 2 8 2 (fun _ => 0) (fun _ => 0)) 0)
        (-118) [] =
      [(pass1 predictor_example 4 4 1 1 2 8 2 (fun _ => 0) (fun _ => 0) 0 7, 7), (7, 9)] := by
  have hmem : ((-118 : Int), 0) ∈
      dispatched predictor_example 4 4 1 1 2 8 2 1 (fun _ => 999) (fun _ => 999) := by
    simp [dispatched, process_image, rows_loop, merge_loop, copy_loop, pad_loop, process_row,
      process_row_loop, filler_rows, record, store, seed, table1_of, predictor_example]
  have h := pass_consistency generate_example (fun _ => encoder_example)
    (Array.mkArray 65536 0) [] predictor_example 4 4 1 1 8 2 (fun _ => 0) (fun _ => 0)
    (fun _ => 999) (fun _ => 999) 0 7 ((-118 : Int), 0) [] (by simp) (by decide) (by decide)
    hmem
  have hcat : numbits.getD ((-118 : Int), 0).1.natAbs 0 = 7 := by
    rw [numbits_getD _ (by decide)]
    have a : ((-118 : Int), 0).1.natAbs.size ≤ 7 := Nat.size_le.mpr (by decide)
    have b : 6 < ((-118 : Int), 0).1.natAbs.size := Nat.lt_size.mpr (by decide)
    omega
  refine ⟨⟨by simp, by decide, by decide⟩, h.1, h.2.2.1, hcat, ?_⟩
  have hw := h.2.2.2.2.1
  rw [hcat] at hw
  rw [hw]
  simp [generated_tables, generate_example, int_not_eq]

/-! ## Source samples read -/

theorem merge_cells_src (data other : Mem) (enc_cols out_cols row_width rowptr : Nat)
    (buf buf2 : Mem) (hec : 1 ≤ enc_cols) (hle : enc_cols ≤ out_cols)
    (hsrc : ∀ r c, r < 2 → c < 2 * enc_cols →
      data (rowptr + r * row_width + c) = other (rowptr + r * row_width + c)) :
    ∀ j, j < 4 * out_cols →
      (merge_loop data enc_cols out_cols 2 row_width 0 rowptr 0 buf).2 j =
        (merge_loop other enc_cols out_cols 2 row_width 0 rowptr 0 buf2).2 j := by
  obtain ⟨_, c1⟩ := merge_loop_spec data enc_cols out_cols row_width rowptr buf hle (Or.inl hec)
  obtain ⟨_, c2⟩ := merge_loop_spec other enc_cols out_cols row_width rowptr buf2 hle
    (Or.inl hec)
  have h0 : ∀ c, c < 2 * enc_cols → data (rowptr + c) = other (rowptr + c) := by
    intro c hc
    have := hsrc 0 c (by omega) hc
    simpa using this
  have h1 : ∀ c, c < 2 * enc_cols →
      data (rowptr + row_width + c) = other (rowptr + row_width + c) := by
    intro c hc
    have := hsrc 1 c (by omega) hc
    simpa using this
  intro j hj
  rw [c1 j, c2 j]
  simp only [hj, if_true]
  split_ifs
  · exact h0 j (by omega)
  · rw [Nat.add_assoc, h0 (2 * enc_cols - 2 + j % 2) (by omega), ← Nat.add_assoc]
  · exact h1 (j - 2 * out_cols) (by omega)
  · rw [Nat.add_assoc (rowptr + row_width), h1 (2 * enc_cols - 2 + j % 2) (by omega),
      ← Nat.add_assoc]

theorem rows_residuals_src (data other : Mem)
    (enc_cols out_cols bit_depth row_width table1 : Nat)
    (hec : 1 ≤ enc_cols) (hle : enc_cols ≤ out_cols) :
    ∀ (n row rowptr : Nat) (v0 v1 w0 w1 : Mem),
      (∀ r c, r < 2 * n → c < 2 * enc_cols →
        data (rowptr + r * row_width + c) = other (rowptr + r * row_width + c)) →
      (row = 0 ∨ (v0 0 = w0 0 ∧ v0 1 = w0 1)) →
      rows_residuals data enc_cols out_cols 2 bit_depth row_width table1 n row rowptr v0 v1 =
        rows_residuals other enc_cols out_cols 2 bit_depth row_width table1 n row rowptr
          w0 w1 := by
  intro n
  induction n with
  | zero => intro row rowptr v0 v1 w0 w1 _ _; simp [rows_residuals]
  | succ n ih =>
    intro row rowptr v0 v1 w0 w1 hsrc h
    obtain ⟨r1, _⟩ := merge_loop_spec data enc_cols out_cols row_width rowptr v1 hle
      (Or.inl hec)
    obtain ⟨r2, _⟩ := merge_loop_spec other enc_cols out_cols row_width rowptr w1 hle
      (Or.inl hec)
    have hc := merge_cells_src data other enc_cols out_cols row_width rowptr v1 w1 hec hle
      (fun r c hr hcc => hsrc r c (by omega) hcc)
    rw [rows_residuals, rows_residuals, r1, r2]
    congr 1
    · apply row_residuals_congr
      · by_cases h0 : row = 0
        · simp only [h0, if_true]
          rw [(seeded_cells v0 _).1, (seeded_cells w0 _).1]
        · simp only [h0, if_false]
          rcases h with h | h
          · exact absurd h h0
          · exact h.1
      · by_cases h0 : row = 0
        · simp only [h0, if_true]
          rw [(seeded_cells v0 _).2, (seeded_cells w0 _).2]
        · simp only [h0, if_false]
          rcases h with h | h
          · exact absurd h h0
          · exact h.2
      · intro j hj
        exact hc j (by omega)
    · apply ih
      · intro r c hr hcc
        have e : rowptr + 2 * row_width + r * row_width = rowptr + (r + 2) * row_width := by
          ring
        rw [e]
        exact hsrc (r + 2) c (by omega) hcc
      · right
        exact ⟨hc 0 (by omega), hc 1 (by omega)⟩

/-- C16 (refuted as stated). With `enc_rows = 1` the valid region is the row `[10,20]`, on
which the two rasters agree; they differ in the cells of row 1, and so do the residuals
dispatched: `process_image` has read row 1. -/
theorem odd_rows_read_past :
    (∀ r c, r < 1 → c < 2 * 1 → odd_example_a (r * 2 + c) = odd_example_b (r * 2 + c)) ∧
    dispatched odd_example_a 1 2 1 1 2 8 2 1 (fun _ => 0) (fun _ => 0) =
      [(-118, 0), (-108, 1), (-10, 0), (-20, 1)] ∧
    dispatched odd_example_b 1 2 1 1 2 8 2 1 (fun _ => 0) (fun _ => 0) =
      [(-118, 0), (-108, 1), (-5, 0), (-13, 1)] ∧
    dispatched odd_example_a 1 2 1 1 2 8 2 1 (fun _ => 0) (fun _ => 0) ≠
      dispatched odd_example_b 1 2 1 1 2 8 2 1 (fun _ => 0) (fun _ => 0) := by
  have ha : dispatched odd_example_a 1 2 1 1 2 8 2 1 (fun _ => 0) (fun _ => 0) =
      [(-118, 0), (-108, 1), (-10, 0), (-20, 1)] := by
    simp [dispatched, process_image, rows_loop, merge_loop, copy_loop, pad_loop, process_row,
      process_row_loop, filler_rows, record, store, seed, table1_of, odd_example_a]
  have hb : dispatched odd_example_b 1 2 1 1 2 8 2 1 (fun _ => 0) (fun _ => 0) =
      [(-118, 0), (-108, 1), (-5, 0), (-13, 1)] := by
    simp [dispatched, process_image, rows_loop, merge_loop, copy_loop, pad_loop, process_row,
      process_row_loop, filler_rows, record, store, seed, table1_of, odd_example_b]
  refine ⟨?_, ha, hb, ?_⟩
  · intro r c hr hc
    have hr0 : r = 0 := by omega
    subst hr0
    have hc01 : c = 0 ∨ c = 1 := by omega
    rcases hc01 with rfl | rfl <;> simp [odd_example_a, odd_example_b]
  · rw [ha, hb]; decide

/-- C16 (amended). For two channels, an even `enc_rows`, `1 <= enc_cols <= out_cols` and
`row_width >= 2 * enc_cols`, the residuals `process_image` dispatches are the same for two
rasters that agree on every index `r * row_width + c` with `r < enc_rows` and
`c < 2 * enc_cols`: no sample outside the valid region is read, neither for padded columns
nor for filler rows. -/
theorem even_rows_read_within (data other : Mem)
    (enc_rows out_rows enc_cols out_cols bit_depth row_width : Nat) (multi_table : Int)
    (v0 v1 : Mem) (heven : enc_rows % 2 = 0) (hec : 1 ≤ enc_cols) (hle : enc_cols ≤ out_cols)
    (_hrw : 2 * enc_cols ≤ row_width)
    (hsrc : ∀ r c, r < enc_rows → c < 2 * enc_cols →
      data (r * row_width + c) = other (r * row_width + c)) :
    dispatched data enc_rows out_rows enc_cols out_cols 2 bit_depth row_width multi_table
        v0 v1 =
      dispatched other enc_rows out_rows enc_cols out_cols 2 bit_depth row_width multi_table
        v0 v1 := by
  rw [dispatched_eq, dispatched_eq]
  congr 1
  apply rows_residuals_src data other enc_cols out_cols bit_depth row_width _ hec hle
  · intro r c hr hc
    have := hsrc r c (by omega) hc
    simpa using this
  · left; rfl

/-- Witness of C16 (amended): `predictor_example` and the raster that differs from it beyond
its four rows. -/
theorem even_rows_read_within_witness :
    (4 % 2 = 0 ∧ 1 ≤ 1 ∧ 1 ≤ 1 ∧ 2 * 1 ≤ 2) ∧
    dispatched predictor_example 4 6 1 1 2 8 2 1 (fun _ => 0) (fun _ => 0) =
      dispatched predictor_example_beyond 4 6 1 1 2 8 2 1 (fun _ => 0) (fun _ => 0) :=
  ⟨by decide,
    even_rows_read_within predictor_example predictor_example_beyond 4 6 1 1 8 2 1
      (fun _ => 0) (fun _ => 0) (by decide) (by decide) (by decide) (by decide)
      (by
        intro r c hr hc
        have h8 : r * 2 + c < 8 := by omega
        simp [predictor_example_beyond, h8])⟩

/-! ## Abort and completion of the driver -/

/-- C13. With the 65536-entry table in place, `jpeg_ls_encode` is aborted exactly when
`channels != 2`; then nothing has happened: the table is as on entry and no external call has
been made. For `channels = 2` it returns 1 with the table initialised, and the whole run has
taken place: the calls made are the two table-builder calls on the histograms of pass 1, the
header, the bit writes of pass 2, the flush and the footer, in this order; the histograms of
pass 1 count every dispatched residual and the writes of pass 2 are `write_diff` over every
dispatched residual. -/
theorem encode_fails_iff (generate : Mem → jpeg_huffman_encoder)
    (huffman : Nat → jpeg_huffman_encoder) (tbl : Array Nat) (calls : List Event) (data : Mem)
    (enc_rows out_rows enc_cols out_cols channels bit_depth row_width : Nat)
    (va0 va1 vb0 vb1 : Mem) (h : tbl.size = 65536) :
    ((jpeg_ls_encode generate huffman tbl calls data enc_rows out_rows enc_cols out_cols
        channels bit_depth row_width va0 va1 vb0 vb1).2.2 = none ↔ channels ≠ 2) ∧
    (channels ≠ 2 →
      jpeg_ls_encode generate huffman tbl calls data enc_rows out_rows enc_cols out_cols
        channels bit_depth row_width va0 va1 vb0 vb1 = (tbl, calls, none)) ∧
    (channels = 2 →
      jpeg_ls_encode generate huffman tbl calls data enc_rows out_rows enc_cols out_cols
          channels bit_depth row_width va0 va1 vb0 vb1 =
        (numbits,
          calls ++
            [Event.huffman_generate 0
                (pass1 data enc_rows out_rows enc_cols out_cols channels bit_depth row_width
                  va0 va1 0),
              Event.huffman_generate 1
                (pass1 data enc_rows out_rows enc_cols out_cols channels bit_depth row_width
                  va0 va1 1),
              Event.write_start (out_rows / 2) (out_cols * 2) channels bit_depth
                (generated_tables generate huffman
                  (pass1 data enc_rows out_rows enc_cols out_cols channels bit_depth row_width
                    va0 va1))
                1 1] ++
            (pass2
              (generated_tables generate huffman
                (pass1 data enc_rows out_rows enc_cols out_cols channels bit_depth row_width
                  va0 va1))
              data enc_rows out_rows enc_cols out_cols channels bit_depth row_width
              vb0 vb1).map (fun x => Event.write_bits x.1 x.2) ++
            [Event.write_flush, Event.write_end],
          some 1) ∧
      (∀ t c,
        pass1 data enc_rows out_rows enc_cols out_cols channels bit_depth row_width va0 va1 t c =
          (dispatched data enc_rows out_rows enc_cols out_cols channels bit_depth row_width 1
            va0 va1).countP
              (fun x => decide (x.2 = t ∧ numbits.getD x.1.natAbs 0 = c))) ∧
      pass2
          (generated_tables generate huffman
            (pass1 data enc_rows out_rows enc_cols out_cols channels bit_depth row_width
              va0 va1))
          data enc_rows out_rows enc_cols out_cols channels bit_depth row_width vb0 vb1 =
        List.foldl (fun s x => write_diff numbits
            (generated_tables generate huffman
              (pass1 data enc_rows out_rows enc_cols out_cols channels bit_depth row_width
                va0 va1) x.2) x.1 s) []
          (dispatched data enc_rows out_rows enc_cols out_cols channels bit_depth row_width 1
            vb0 vb1)) := by
  have hne : channels ≠ 2 →
      jpeg_ls_encode generate huffman tbl calls data enc_rows out_rows enc_cols out_cols
        channels bit_depth row_width va0 va1 vb0 vb1 = (tbl, calls, none) := by
    intro hc
    unfold jpeg_ls_encode
    simp only [ne_eq, hc, not_false_eq_true, if_true]
  by_cases hc : channels = 2
  · subst hc
    have e := jpeg_ls_encode_eq generate huffman tbl calls data enc_rows out_rows enc_cols
      out_cols bit_depth row_width va0 va1 vb0 vb1 h
    refine ⟨?_, hne, ?_⟩
    · rw [e]; simp
    · intro _
      exact ⟨e, fun t c => pass1_counts _ _ _ _ _ _ _ _ _ _ t c, pass2_eq _ _ _ _ _ _ _ _ _ _ _⟩
  · refine ⟨?_, hne, fun h2 => absurd h2 hc⟩
    rw [hne hc]
    simp [hc]

/-- Witness of C13: on `predictor_example` three channels abort the run with no call made,
and two channels give the whole run and the value 1. -/
theorem encode_fails_iff_witness :
    (Array.mkArray 65536 0).size = 65536 ∧
    jpeg_ls_encode generate_example (fun _ => encoder_example) (Array.mkArray 65536 0) []
        predictor_example 4 4 1 1 3 8 2 (fun _ => 0) (fun _ => 0) (fun _ => 0) (fun _ => 0) =
      (Array.mkArray 65536 0, [], none) ∧
    jpeg_ls_encode generate_example (fun _ => encoder_example) (Array.mkArray 65536 0) []
        predictor_example 4 4 1 1 2 8 2 (fun _ => 0) (fun _ => 0) (fun _ => 0) (fun _ => 0) =
      (numbits,
        [] ++
          [Event.huffman_generate 0
              (pass1 predictor_example 4 4 1 1 2 8 2 (fun _ => 0) (fun _ => 0) 0),
            Event.huffman_generate 1
              (pass1 predictor_example 4 4 1 1 2 8 2 (fun _ => 0) (fun _ => 0) 1),
            Event.write_start (4 / 2) (1 * 2) 2 8
              (generated_tables generate_example (fun _ => encoder_example)
                (pass1 predictor_example 4 4 1 1 2 8 2 (fun _ => 0) (fun _ => 0)))
              1 1] ++
          (pass2
            (generated_tables generate_example (fun _ => encoder_example)
              (pass1 predictor_example 4 4 1 1 2 8 2 (fun _ => 0) (fun _ => 0)))
            predictor_example 4 4 1 1 2 8 2 (fun _ => 0) (fun _ => 0)).map
              (fun x => Event.write_bits x.1 x.2) ++
          [Event.write_flush, Event.write_end],
        some 1) :=
  ⟨by simp,
    (encode_fails_iff generate_example (fun _ => encoder_example) (Array.mkArray 65536 0) []
      predictor_example 4 4 1 1 3 8 2 (fun _ => 0) (fun _ => 0) (fun _ => 0) (fun _ => 0)
      (by simp)).2.1 (by decide),
    ((encode_fails_iff generate_example (fun _ => encoder_example) (Array.mkArray 65536 0) []
      predictor_example 4 4 1 1 2 8 2 (fun _ => 0) (fun _ => 0) (fun _ => 0) (fun _ => 0)
      (by simp)).2.2 rfl).1⟩

end JpegLs
